import Mathlib

/-!
# lowerkeys: a header map with lower-case keys

A shallow embedding of `header.go` (package `lowerkeys`) and proofs of the
properties its specification states.

Modelling decisions.

* A Go `[]string` is a `Slice`: the nil slice or a non-nil slice with its
  elements in order.  A Go `map[string][]string` (both `http.Header` and
  `lowerkeys.Header`) is a `Header`: the nil map or a non-nil map with a finite
  set of entries.
* `strings.ToLower` belongs to the Go standard library, not to this package.
  Every operation takes it as the argument `lower`; the theorems hold for every
  such function, and state the one law they use (`lower (lower s) = lower s`)
  as a hypothesis.  `toLowerLatin1`, which is `strings.ToLower` on strings of
  code points below U+0100, is the instance the examples use.
* Go leaves the order of a `for ... range` over a map unspecified.  A loop is
  therefore driven by a visiting schedule, a list of keys: a key of the
  schedule is produced when it is present in the map at the time it is reached
  and is passed over otherwise.  A schedule is admissible for a map when it
  `Covers` it, that is, every key of the map occurs in it; entries created
  during the loop may occur (produced) or not (skipped), at any position.
* A run-time panic is the `error` result of `Except`.
* Go strings, keys and values alike, are Lean strings.
* The embedding above takes a slice for its elements, as the data model of the
  specification does.  That is enough for the keys of a map, for what a method
  returns, and for the elements under the key a method writes.  What depends
  on which map object or which backing array a value refers to is settled on a
  second embedding, `Mem`, in which maps and slices are references into a
  `Memory`: a copy against an alias, and what `append` in `Add`, which writes
  into the backing array of its argument when the capacity allows, does to the
  elements read under other keys.  `Mem.From`, `Mem.Using` and `Mem.Add` are
  related to `From`, `Using` and `Add` by reading the memory (`Mem.Add` where
  the slice appended to shares no array cell with the slices under other
  keys).
-/

namespace lowerkeys

/-! ## Go values -/

/-- A Go value of type `[]string`, up to the backing array: `nil` is the nil
slice, `mk l` a non-nil slice whose elements are `l`, in order. -/
inductive Slice where
  | nil : Slice
  | mk (elems : List String) : Slice
  deriving DecidableEq, Repr

/-- The elements of a slice, in order. -/
def Slice.elems : Slice → List String
  | .nil => []
  | .mk l => l

/-- Go `len(s)`. -/
def Slice.len (s : Slice) : Nat := s.elems.length

/-- Go `append(s, v)`, as to its result: a non-nil slice whose elements are
those of `s` followed by `v`.  That `append` writes into the backing array of
`s` when the capacity allows, and so into every slice that shares the cell
written, is not seen here: `Mem.append` models it. -/
def Slice.append (s : Slice) (v : String) : Slice := .mk (s.elems ++ [v])

/-- The entries of a non-nil Go map from strings to string slices. -/
abbrev Entries := Finmap (fun _ : String => Slice)

/-- A Go value of type `map[string][]string`, the underlying type of both
`http.Header` and `lowerkeys.Header`: the nil map or a non-nil map. -/
inductive Header where
  | nil : Header
  | mk (entries : Entries) : Header
  deriving DecidableEq

/-- Go `v, ok := h[k]`: `none` when `ok` is false. -/
def Header.index : Header → String → Option Slice
  | .nil, _ => none
  | .mk e, k => e.lookup k

/-- Go `h[k]`: the zero value, the nil slice, when the key is absent. -/
def Header.at (h : Header) (k : String) : Slice :=
  match h.index k with
  | some v => v
  | none => .nil

/-- The keys present in a map. -/
def Header.keys : Header → Finset String
  | .nil => ∅
  | .mk e => e.keys

/-- Go `len(h)`. -/
def Header.len (h : Header) : Nat := h.keys.card

/-- Go `h[k] = v`: assignment to an entry of a nil map panics. -/
def Header.assign : Header → String → Slice → Except String Header
  | .nil, _, _ => .error "assignment to entry in nil map"
  | .mk e, k, v => .ok (.mk (e.insert k v))

/-- Go `delete(h, k)`: a no-op on a nil map and on an absent key. -/
def Header.delete : Header → String → Header
  | .nil, _ => .nil
  | .mk e, k => .mk (e.erase k)

deriving instance DecidableEq for Except

/-- A visiting schedule covers a map when every key of the map occurs in it. -/
def Covers (order : List String) (h : Header) : Prop := ∀ k ∈ h.keys, k ∈ order

instance (order : List String) (h : Header) : Decidable (Covers order h) := by
  unfold Covers; infer_instance

/-! ## A concrete key transformation -/

/-- Go `unicode.ToLower` on the code points below U+0100: the capitals `A`-`Z`,
`À`-`Ö` and `Ø`-`Þ` move up by 32, every other code point below U+0100 is
unchanged.  Code points from U+0100 on are left unchanged here, which is not
what `unicode.ToLower` does to the capitals among them. -/
def unicodeToLowerLatin1 (c : Char) : Char :=
  if (0x41 ≤ c.toNat ∧ c.toNat ≤ 0x5A) ∨ (0xC0 ≤ c.toNat ∧ c.toNat ≤ 0xD6) ∨
      (0xD8 ≤ c.toNat ∧ c.toNat ≤ 0xDE)
  then Char.ofNat (c.toNat + 32) else c

/-- Go `strings.ToLower` on strings whose code points all lie below U+0100; on
other strings it is not `strings.ToLower`, which lower-cases letters from
U+0100 on too.  It serves as a sample instance of the argument `lower`, on keys
below U+0100 only. -/
def toLowerLatin1 (s : String) : String := String.mk (s.data.map unicodeToLowerLatin1)

/-- The key transformation as the specification words it: each of the letters
`A`-`Z` is mapped to the corresponding `a`-`z`, every other character is
unchanged. -/
def asciiFoldChar (c : Char) : Char :=
  if 0x41 ≤ c.toNat ∧ c.toNat ≤ 0x5A then Char.ofNat (c.toNat + 32) else c

/-- The ASCII-range fold of a string, as the specification words it. -/
def asciiFold (s : String) : String := String.mk (s.data.map asciiFoldChar)

/-- The string is made of ASCII characters. -/
def IsASCII (s : String) : Prop := ∀ c ∈ s.data, c.toNat < 0x80

instance (s : String) : Decidable (IsASCII s) := by
  unfold IsASCII; infer_instance

/-! ## The package -/

/-- What a collision abort leaves behind: the panic message and the contents,
at that moment, of the map being normalised. -/
structure Abort where
  message : String
  header : Header
  deriving DecidableEq

section Package

variable (lower : String → String)

/-- `New` returns a new, empty, non-nil header. -/
def New : Header := .mk ∅

/-- One iteration of the loop of `makeLowercase` on a non-nil map, for the
produced pair `oldKey`, `values`. -/
def makeLowercaseBody (header : Entries) (oldKey : String) (values : Slice) :
    Except Abort Entries :=
  let newKey := lower oldKey
  if newKey = oldKey then
    .ok header
  else
    let header := header.erase oldKey
    if newKey ∈ header then
      .error ⟨"encountered two keys with identical lower-case representation: \"" ++
        newKey ++ "\" and \"" ++ oldKey ++ "\"", .mk header⟩
    else
      .ok (header.insert newKey values)

/-- The loop of `makeLowercase` over a non-nil map, driven by a visiting
schedule: a key is produced, with the value stored under it at that moment,
when it is present when reached. -/
def makeLowercaseLoop : List String → Entries → Except Abort Entries
  | [], header => .ok header
  | oldKey :: rest, header =>
    match header.lookup oldKey with
    | none => makeLowercaseLoop rest header
    | some values =>
      match makeLowercaseBody lower header oldKey values with
      | .error a => .error a
      | .ok header => makeLowercaseLoop rest header

/-- `makeLowercase`: ranging over a nil map runs no iteration. -/
def makeLowercase (order : List String) : Header → Except Abort Header
  | .nil => .ok .nil
  | .mk e =>
    match makeLowercaseLoop lower order e with
    | .error a => .error a
    | .ok e => .ok (.mk e)

/-- The copying loop of `From` over a non-nil source map, which it does not
modify, driven by a visiting schedule. -/
def fromLoop (header : Entries) : List String → Entries → Entries
  | [], newKeyValues => newKeyValues
  | key :: rest, newKeyValues =>
    match header.lookup key with
    | none => fromLoop header rest newKeyValues
    | some values =>
      if values = .nil then
        fromLoop header rest (newKeyValues.insert key .nil)
      else
        fromLoop header rest (newKeyValues.insert key (.mk ([] ++ values.elems)))

/-- `From`: `order1` drives the copying loop, `order2` the loop of
`makeLowercase` over the copy. -/
def From (order1 order2 : List String) (header : Header) : Except Abort Header :=
  let newKeyValues : Entries :=
    match header with
    | .nil => ∅
    | .mk e => fromLoop e order1 ∅
  makeLowercase lower order2 (.mk newKeyValues)

/-- `Using`: the conversion `Header(header)` keeps the map. -/
def Using (order : List String) (header : Header) : Except Abort Header :=
  makeLowercase lower order header

/-- `Header.Add`, as to the keys of the map and the elements under the key
written.  The elements read under the other keys are left as they are here;
in Go they change when their slice shares with the slice appended to the array
cell that `append` writes, which `Mem.Add` models. -/
def Add (h : Header) (key value : String) : Except String Header :=
  let key := lower key
  h.assign key ((h.at key).append value)

/-- `Header.Del`. -/
def Del (h : Header) (key : String) : Header :=
  h.delete (lower key)

/-- `Header.Get`. -/
def Get (h : Header) (key : String) : String :=
  let key := lower key
  match h.index key with
  | some values =>
    if hlen : 0 < values.len then values.elems.get ⟨0, hlen⟩ else ""
  | none => ""

/-- `Header.Set`. -/
def Set (h : Header) (key value : String) : Except String Header :=
  h.assign (lower key) (.mk [value])

/-- `Header.Values`. -/
def Values (h : Header) (key : String) : Slice :=
  let key := lower key
  match h.index key with
  | some values => values
  | none => .nil

/-- The data-model invariant: every key present equals its own lower-case form. -/
def AllLower (h : Header) : Prop := ∀ k ∈ h.keys, lower k = k

/-- No two distinct keys of the map have the same lower-case form. -/
def CollisionFree (h : Header) : Prop :=
  ∀ k1 ∈ h.keys, ∀ k2 ∈ h.keys, lower k1 = lower k2 → k1 = k2

/-- A call of one of the three mutating methods. -/
inductive Call where
  | add (key value : String) : Call
  | set (key value : String) : Call
  | del (key : String) : Call
  deriving DecidableEq

/-- The key argument of a call. -/
def Call.key : Call → String
  | .add key _ => key
  | .set key _ => key
  | .del key => key

/-- The text of the collision panic: the format string of `makeLowercase`
with its two arguments, `newKey` and `oldKey`. -/
def collisionMessage (newKey oldKey : String) : String :=
  "encountered two keys with identical lower-case representation: \"" ++
    newKey ++ "\" and \"" ++ oldKey ++ "\""

/-- The message contains the given text. -/
def Mentions (message text : String) : Prop := List.IsInfix text.data message.data

/-- Where the entries of a map being normalised come from: every entry of `e`
holds the slice the original map `m` holds under some key `k0`, and is stored
under `k0` itself, or under the lower-case form of `k0` when `k0` is not
lower-case and is no longer present. -/
def Renamed (m e : Entries) : Prop :=
  ∀ k v, e.lookup k = some v →
    ∃ k0, m.lookup k0 = some v ∧ (k = k0 ∨ (k = lower k0 ∧ lower k0 ≠ k0 ∧ k0 ∉ e))

end Package

/-! ## Maps and slices as references

Go maps and slices are references: a map value is the address of a map object,
a slice value a window into a backing array.  This second embedding keeps the
backing arrays and the map objects in a `Memory`, so that it can tell a copy
from an alias.  `headerAt` reads a map of the memory as a `Header`. -/

/-- A Go slice value as it is stored: nil, or the window of `len` elements from
offset `off` of the backing array at address `array`, of capacity `cap`. -/
inductive SliceRef where
  | nil : SliceRef
  | mk (array off len cap : Nat) : SliceRef

instance : DecidableEq SliceRef := fun s t =>
  match s, t with
  | .nil, .nil => isTrue rfl
  | .nil, .mk _ _ _ _ => isFalse (fun h => by cases h)
  | .mk _ _ _ _, .nil => isFalse (fun h => by cases h)
  | .mk a1 o1 l1 c1, .mk a2 o2 l2 c2 =>
    decidable_of_iff (a1 = a2 ∧ o1 = o2 ∧ l1 = l2 ∧ c1 = c2)
      ⟨fun ⟨h1, h2, h3, h4⟩ => by rw [h1, h2, h3, h4], fun h => by cases h; exact ⟨rfl, rfl, rfl, rfl⟩⟩

/-- Go `len(s)` of a stored slice value. -/
def SliceRef.len : SliceRef → Nat
  | .nil => 0
  | .mk _ _ len _ => len

/-- A map object: the slice value stored under each key. -/
abbrev MapObj := Finmap (fun _ : String => SliceRef)

/-- A Go map value: nil or the address of a map object. -/
inductive MapRef where
  | nil : MapRef
  | addr (a : Nat) : MapRef
  deriving DecidableEq

/-- The backing arrays, by address. -/
abbrev Arrays := List (List String)

/-- The elements a slice value denotes. -/
def readSlice (arrays : Arrays) : SliceRef → List String
  | .nil => []
  | .mk a off len _ => ((arrays.getD a []).drop off).take len

/-- The slice a slice value denotes. -/
def sliceOf (arrays : Arrays) : SliceRef → Slice
  | .nil => .nil
  | .mk a off len cap => .mk (readSlice arrays (.mk a off len cap))

/-- The entries a map object denotes. -/
def viewObj (arrays : Arrays) (obj : MapObj) : Entries :=
  ⟨obj.entries.map (fun x => ⟨x.1, sliceOf arrays x.2⟩), by
    have h := obj.nodupKeys
    rw [← Multiset.nodup_keys] at h ⊢
    have hkeys : (obj.entries.map
        (fun x => (⟨x.1, sliceOf arrays x.2⟩ : Sigma fun _ : String => Slice))).keys =
        obj.entries.keys := by
      simp [Multiset.keys, Multiset.map_map, Function.comp_def]
    rw [hkeys]
    exact h⟩

/-- The memory: the backing arrays and the map objects, by address. -/
structure Memory where
  arrays : Arrays
  maps : List MapObj

instance : DecidableEq Memory := fun m1 m2 =>
  decidable_of_iff (m1.arrays = m2.arrays ∧ m1.maps = m2.maps)
    ⟨fun ⟨h1, h2⟩ => by cases m1; cases m2; simp only [] at h1 h2; rw [h1, h2],
      fun h => by rw [h]; exact ⟨rfl, rfl⟩⟩

/-- The map object a map value refers to; the nil map has no entries. -/
def Memory.objAt (mem : Memory) : MapRef → MapObj
  | .nil => ∅
  | .addr a => mem.maps.getD a ∅

/-- Go `v, ok := m[k]` on a map of the memory, `v` as stored. -/
def Memory.indexAt (mem : Memory) (m : MapRef) (k : String) : Option SliceRef :=
  (mem.objAt m).lookup k

/-- The contents of a map of the memory. -/
def Memory.headerAt (mem : Memory) : MapRef → Header
  | .nil => .nil
  | .addr a => .mk (viewObj mem.arrays (mem.maps.getD a ∅))

/-- Go `m[k] = v` by a holder of the map value `m`. -/
def Memory.assignAt (mem : Memory) : MapRef → String → SliceRef → Except String Memory
  | .nil, _, _ => .error "assignment to entry in nil map"
  | .addr a, k, v => .ok { mem with maps := mem.maps.set a ((mem.maps.getD a ∅).insert k v) }

/-- Go `delete(m, k)` by a holder of the map value `m`. -/
def Memory.deleteAt (mem : Memory) : MapRef → String → Memory
  | .nil, _ => mem
  | .addr a, k => { mem with maps := mem.maps.set a ((mem.maps.getD a ∅).erase k) }

/-- Go `s[i] = v` by a holder of the slice value `s`. -/
def Memory.setElem (mem : Memory) : SliceRef → Nat → String → Except String Memory
  | .nil, _, _ => .error "index out of range"
  | .mk a off len _, i, v =>
    if i < len then
      .ok { mem with arrays := mem.arrays.set a ((mem.arrays.getD a []).set (off + i) v) }
    else
      .error "index out of range"

/-- The slice value is nil or points to an allocated array. -/
def SliceRef.AllocatedIn (arrays : Arrays) : SliceRef → Prop
  | .nil => True
  | .mk x _ _ _ => x < arrays.length

instance (arrays : Arrays) (s : SliceRef) : Decidable (s.AllocatedIn arrays) :=
  match s with
  | .nil => isTrue trivial
  | .mk x _ _ _ => inferInstanceAs (Decidable (x < arrays.length))

/-- The slice values stored in the map point to allocated arrays. -/
def Memory.WellFormedAt (mem : Memory) (m : MapRef) : Prop :=
  ∀ k ∈ (mem.objAt m).keys, ((mem.indexAt m k).getD .nil).AllocatedIn mem.arrays

instance (mem : Memory) (m : MapRef) : Decidable (mem.WellFormedAt m) := by
  unfold Memory.WellFormedAt; infer_instance

/-- The slice value lies within an allocated array: its length is within its
capacity, and its capacity within the array. -/
def SliceRef.InBounds (arrays : Arrays) : SliceRef → Prop
  | .nil => True
  | .mk x off len cap => x < arrays.length ∧ len ≤ cap ∧ off + cap ≤ (arrays.getD x []).length

instance (arrays : Arrays) (s : SliceRef) : Decidable (s.InBounds arrays) :=
  match s with
  | .nil => isTrue trivial
  | .mk x off len cap =>
    inferInstanceAs (Decidable (x < arrays.length ∧ len ≤ cap ∧
      off + cap ≤ (arrays.getD x []).length))

/-- Two slice values are apart when no array cell lies within the capacity of
both: they point to different arrays, or to windows of one array that do not
overlap. -/
def SliceRef.Apart : SliceRef → SliceRef → Prop
  | .mk x off _ cap, .mk y off2 _ cap2 => x ≠ y ∨ off + cap ≤ off2 ∨ off2 + cap2 ≤ off
  | _, _ => True

instance (s t : SliceRef) : Decidable (s.Apart t) :=
  match s, t with
  | .mk x off _ cap, .mk y off2 _ cap2 =>
    inferInstanceAs (Decidable (x ≠ y ∨ off + cap ≤ off2 ∨ off2 + cap2 ≤ off))
  | .nil, _ => isTrue (by simp [SliceRef.Apart])
  | .mk _ _ _ _, .nil => isTrue (by simp [SliceRef.Apart])

/-- The array cell that `append` to the first slice value writes when that one
has spare capacity, the cell just past its end, is one of the elements of the
second. -/
def SliceRef.WritesInto : SliceRef → SliceRef → Prop
  | .mk x off len cap, .mk y off2 len2 _ =>
    len < cap ∧ x = y ∧ off2 ≤ off + len ∧ off + len < off2 + len2
  | _, _ => False

instance (s t : SliceRef) : Decidable (s.WritesInto t) :=
  match s, t with
  | .mk x off len cap, .mk y off2 len2 _ =>
    inferInstanceAs (Decidable (len < cap ∧ x = y ∧ off2 ≤ off + len ∧ off + len < off2 + len2))
  | .nil, _ => isFalse (by simp [SliceRef.WritesInto])
  | .mk _ _ _ _, .nil => isFalse (by simp [SliceRef.WritesInto])

/-- Go `s[i]` for `i < len(s)`. -/
def readElem (arrays : Arrays) : SliceRef → Nat → String
  | .nil, _ => ""
  | .mk x off _ _, i => (arrays.getD x []).getD (off + i) ""

/-- Every slice value stored in the map lies within an allocated array. -/
def Memory.InBoundsAt (mem : Memory) (m : MapRef) : Prop :=
  ∀ k ∈ (mem.objAt m).keys, ((mem.indexAt m k).getD .nil).InBounds mem.arrays

instance (mem : Memory) (m : MapRef) : Decidable (mem.InBoundsAt m) := by
  unfold Memory.InBoundsAt; infer_instance

/-- The slice value stored under the key is apart from the slice value stored
under every other key of the map. -/
def Memory.ApartAt (mem : Memory) (m : MapRef) (key : String) : Prop :=
  ∀ k ∈ (mem.objAt m).keys, k ≠ key →
    ((mem.indexAt m key).getD .nil).Apart ((mem.indexAt m k).getD .nil)

instance (mem : Memory) (m : MapRef) (key : String) : Decidable (mem.ApartAt m key) := by
  unfold Memory.ApartAt; infer_instance

/-- What a collision abort leaves behind in the memory. -/
structure MemAbort where
  message : String
  memory : Memory

instance : DecidableEq MemAbort := fun a1 a2 =>
  decidable_of_iff (a1.message = a2.message ∧ a1.memory = a2.memory)
    ⟨fun ⟨h1, h2⟩ => by cases a1; cases a2; simp only [] at h1 h2; rw [h1, h2],
      fun h => by rw [h]; exact ⟨rfl, rfl⟩⟩

namespace Mem

/-- One iteration of the loop of `makeLowercase` on a map object; on a
collision, the message and the map object at that moment. -/
def makeLowercaseBody (lower : String → String) (header : MapObj) (oldKey : String)
    (values : SliceRef) : Except (String × MapObj) MapObj :=
  let newKey := lower oldKey
  if newKey = oldKey then
    .ok header
  else
    let header := header.erase oldKey
    if newKey ∈ header then
      .error (collisionMessage newKey oldKey, header)
    else
      .ok (header.insert newKey values)

/-- The loop of `makeLowercase` on a map object, driven by a visiting
schedule. -/
def makeLowercaseLoop (lower : String → String) :
    List String → MapObj → Except (String × MapObj) MapObj
  | [], header => .ok header
  | oldKey :: rest, header =>
    match header.lookup oldKey with
    | none => makeLowercaseLoop lower rest header
    | some values =>
      match makeLowercaseBody lower header oldKey values with
      | .error a => .error a
      | .ok header => makeLowercaseLoop lower rest header

/-- `makeLowercase` on a map of the memory: it changes the map object in place
and returns the map value it was given. -/
def makeLowercase (lower : String → String) (order : List String) (mem : Memory) :
    MapRef → Except MemAbort (Memory × MapRef)
  | .nil => .ok (mem, .nil)
  | .addr a =>
    match makeLowercaseLoop lower order (mem.maps.getD a ∅) with
    | .error (message, obj) => .error ⟨message, { mem with maps := mem.maps.set a obj }⟩
    | .ok obj => .ok ({ mem with maps := mem.maps.set a obj }, .addr a)

/-- The copying loop of `From` over the source map object: for a non-nil value
it allocates a backing array of `len(values)` elements and fills it with the
elements of `values` (`append(make([]string, 0, len(values)), values...)`). -/
def fromLoop (header : MapObj) : List String → Arrays × MapObj → Arrays × MapObj
  | [], state => state
  | key :: rest, (arrays, newKeyValues) =>
    match header.lookup key with
    | none => fromLoop header rest (arrays, newKeyValues)
    | some values =>
      if values = .nil then
        fromLoop header rest (arrays, newKeyValues.insert key .nil)
      else
        fromLoop header rest (arrays ++ [readSlice arrays values],
          newKeyValues.insert key (.mk arrays.length 0 values.len values.len))

/-- `From` on a map of the memory: `make(Header)` allocates the next map
object. -/
def From (lower : String → String) (order1 order2 : List String) (mem : Memory)
    (header : MapRef) : Except MemAbort (Memory × MapRef) :=
  let copied : Arrays × MapObj :=
    match header with
    | .nil => (mem.arrays, ∅)
    | .addr a => fromLoop (mem.maps.getD a ∅) order1 (mem.arrays, ∅)
  makeLowercase lower order2 ⟨copied.1, mem.maps ++ [copied.2]⟩ (.addr mem.maps.length)

/-- `Using` on a map of the memory. -/
def Using (lower : String → String) (order : List String) (mem : Memory)
    (header : MapRef) : Except MemAbort (Memory × MapRef) :=
  makeLowercase lower order mem header

/-- The allocating case of Go `append(s, v)`: a new array, which holds the
elements of `s`, then `v`, then the spare capacity `spare (len s)` the runtime
chooses to add. -/
def grow (spare : Nat → Nat) (arrays : Arrays) (s : SliceRef) (v : String) :
    Arrays × SliceRef :=
  (arrays ++ [readSlice arrays s ++ v :: List.replicate (spare s.len) ""],
    .mk arrays.length 0 (s.len + 1) (s.len + 1 + spare s.len))

/-- Go `append(s, v)`: when the capacity of `s` exceeds its length, the element
is written into the backing array of `s`, just past its end, and the result is
that window lengthened by one; otherwise a new array is allocated. -/
def append (spare : Nat → Nat) (arrays : Arrays) (s : SliceRef) (v : String) :
    Arrays × SliceRef :=
  match s with
  | .nil => grow spare arrays .nil v
  | .mk x off len cap =>
    if len < cap then
      (arrays.set x ((arrays.getD x []).set (off + len) v), .mk x off (len + 1) cap)
    else
      grow spare arrays (.mk x off len cap) v

/-- `Header.Add` on a map of the memory. -/
def Add (lower : String → String) (spare : Nat → Nat) (mem : Memory) (h : MapRef)
    (key value : String) : Except String Memory :=
  let key := lower key
  let appended := append spare mem.arrays ((mem.indexAt h key).getD .nil) value
  match h with
  | .nil => .error "assignment to entry in nil map"
  | .addr a =>
    .ok ⟨appended.1, mem.maps.set a ((mem.maps.getD a ∅).insert key appended.2)⟩

/-- `Header.Del` on a map of the memory. -/
def Del (lower : String → String) (mem : Memory) (h : MapRef) (key : String) : Memory :=
  mem.deleteAt h (lower key)

/-- `Header.Get` on a map of the memory. -/
def Get (lower : String → String) (mem : Memory) (h : MapRef) (key : String) : String :=
  let key := lower key
  match mem.indexAt h key with
  | some values => if 0 < values.len then readElem mem.arrays values 0 else ""
  | none => ""

/-- `Header.Set` on a map of the memory: the literal `[]string{value}` is a new
array of one element. -/
def Set (lower : String → String) (mem : Memory) (h : MapRef) (key value : String) :
    Except String Memory :=
  match h with
  | .nil => .error "assignment to entry in nil map"
  | .addr a =>
    .ok ⟨mem.arrays ++ [[value]],
      mem.maps.set a ((mem.maps.getD a ∅).insert (lower key) (.mk mem.arrays.length 0 1 1))⟩

/-- `Header.Values` on a map of the memory: the slice value as stored. -/
def Values (lower : String → String) (mem : Memory) (h : MapRef) (key : String) : SliceRef :=
  let key := lower key
  match mem.indexAt h key with
  | some values => values
  | none => .nil

/-- The effect of one call on a map of the memory. -/
def runCall (lower : String → String) (spare : Nat → Nat) (h : MapRef) :
    Call → Memory → Except String Memory
  | .add key value, mem => Add lower spare mem h key value
  | .set key value, mem => Set lower mem h key value
  | .del key, mem => .ok (Del lower mem h key)

/-- The effect of a sequence of calls on a map of the memory, in order; a panic
ends the run. -/
def runCalls (lower : String → String) (spare : Nat → Nat) (h : MapRef) :
    List Call → Memory → Except String Memory
  | [], mem => .ok mem
  | c :: rest, mem =>
    match runCall lower spare h c mem with
    | .error msg => .error msg
    | .ok mem => runCalls lower spare h rest mem

end Mem

/-! ## Sample maps, from the tests of the package -/

/-- The source map of most tests: `Content-Type: foo`, `Content-Length: 3`. -/
def sampleHeader : Header :=
  .mk (Finmap.insert "Content-Type" (.mk ["foo"]) (Finmap.insert "Content-Length" (.mk ["3"]) ∅))

/-- The source map of the two panic tests: two spellings of one name. -/
def collidingHeader : Header :=
  .mk (Finmap.insert "Content-Type" (.mk ["foo"]) (Finmap.insert "cOnTenT-tYpE" (.mk ["foo"]) ∅))

/-- A normalised header: `content-type: foo, bar`, `nonsense: 3, 4`. -/
def lowerHeader : Header :=
  .mk (Finmap.insert "content-type" (.mk ["foo", "bar"]) (Finmap.insert "nonsense" (.mk ["3", "4"]) ∅))

/-- A memory with the source map of the tests at address 0. -/
def sampleMemory : Memory :=
  ⟨[["foo"], ["3"]],
    [Finmap.insert "Content-Type" (.mk 0 0 1 1) (Finmap.insert "Content-Length" (.mk 1 0 1 1) ∅)]⟩

/-- A memory whose map at address 0 holds one and the same slice under two
spellings of one name. -/
def sharedSliceMemory : Memory :=
  ⟨[["v"]], [Finmap.insert "Ab" (.mk 0 0 1 1) (Finmap.insert "ab" (.mk 0 0 1 1) ∅)]⟩

/-- A memory whose map at address 0 holds under `a` and `b` two windows of one
array of three elements: `s[:1]` and `s[1:2]`. -/
def overlappingMemory : Memory :=
  ⟨[["x", "y", "z"]], [Finmap.insert "a" (.mk 0 0 1 3) (Finmap.insert "b" (.mk 0 1 1 2) ∅)]⟩

/-- A memory whose map at address 0 holds under `a` and `b` one and the same
empty slice of capacity 2. -/
def sharedEmptyMemory : Memory :=
  ⟨[["", ""]], [Finmap.insert "a" (.mk 0 0 0 2) (Finmap.insert "b" (.mk 0 0 0 2) ∅)]⟩

/-- A memory with a normalised header at address 0: `content-type: foo, bar`
in an array with room for one more element, `nonsense: 3, 4` in a full one. -/
def lowerMemory : Memory :=
  ⟨[["foo", "bar", ""], ["3", "4"]],
    [Finmap.insert "content-type" (.mk 0 0 2 3) (Finmap.insert "nonsense" (.mk 1 0 2 2) ∅)]⟩

/-- A map with two spellings of one name, neither of them lower-case. -/
def abHeader : Header :=
  .mk (Finmap.insert "Ab" (.mk ["1"]) (Finmap.insert "aB" (.mk ["2"]) ∅))

/-- A memory with the map of the panic tests and a third key at address 0. -/
def collidingMemory : Memory :=
  ⟨[["foo"], ["bar"], ["3"]],
    [Finmap.insert "Content-Type" (.mk 0 0 1 1) (Finmap.insert "cOnTenT-tYpE" (.mk 1 0 1 1)
      (Finmap.insert "Content-Length" (.mk 2 0 1 1) ∅))]⟩

instance (message text : String) : Decidable (Mentions message text) := by
  unfold Mentions; infer_instance

instance (lower : String → String) (h : Header) : Decidable (AllLower lower h) := by
  unfold AllLower; infer_instance

instance (lower : String → String) (h : Header) : Decidable (CollisionFree lower h) := by
  unfold CollisionFree; infer_instance

end lowerkeys

/-! ## Auxiliary facts -/

namespace lowerkeys

theorem toNat_ofNat_of_lt (n : Nat) (h : n < 0xD800) : (Char.ofNat n).toNat = n := by
  have hv : n.isValidChar := Or.inl h
  simp only [Char.ofNat, hv, dite_true, Char.ofNatAux, Char.toNat]
  simp [UInt32.toNat, BitVec.toNat_ofNatLt]

theorem unicodeToLowerLatin1_idem (c : Char) :
    unicodeToLowerLatin1 (unicodeToLowerLatin1 c) = unicodeToLowerLatin1 c := by
  unfold unicodeToLowerLatin1
  split_ifs with h1 h2
  · exfalso
    rw [toNat_ofNat_of_lt _ (by omega)] at h2
    omega
  · rfl
  · rfl

theorem toLowerLatin1_idem (s : String) : toLowerLatin1 (toLowerLatin1 s) = toLowerLatin1 s := by
  simp [toLowerLatin1, List.map_map, Function.comp_def, unicodeToLowerLatin1_idem]

section Aux

variable (lower : String → String)

theorem mem_keys_mk {e : Entries} {k : String} : k ∈ (Header.mk e).keys ↔ k ∈ e := by
  simp [Header.keys, Finmap.mem_keys]

theorem keys_insert (e : Entries) (k : String) (v : Slice) :
    (e.insert k v).keys = insert k e.keys := by
  ext x
  simp [Finmap.mem_keys, Finmap.mem_insert]

theorem index_eq_none_iff {h : Header} {k : String} : h.index k = none ↔ k ∉ h.keys := by
  cases h with
  | nil => simp [Header.index, Header.keys]
  | mk e => simp [Header.index, Header.keys, Finmap.lookup_eq_none, Finmap.mem_keys]

theorem lookup_insert_erase (e : Entries) (a b x : String) (v : Slice) :
    ((e.erase a).insert b v).lookup x =
      if x = b then some v else if x = a then none else e.lookup x := by
  by_cases hb : x = b
  · subst hb; simp [Finmap.lookup_insert]
  · rw [Finmap.lookup_insert_of_ne _ hb, if_neg hb]
    by_cases ha : x = a
    · subst ha; simp [Finmap.lookup_erase]
    · rw [Finmap.lookup_erase_ne ha, if_neg ha]

/-- The two ways an iteration of `makeLowercase` completes. -/
theorem makeLowercaseBody_ok {e e' : Entries} {old : String} {v : Slice}
    (h : makeLowercaseBody lower e old v = .ok e') :
    (lower old = old ∧ e' = e) ∨
      (lower old ≠ old ∧ lower old ∉ e.erase old ∧ e' = (e.erase old).insert (lower old) v) := by
  unfold makeLowercaseBody at h
  by_cases h1 : lower old = old
  · left
    simp only [h1, if_true] at h
    exact ⟨h1, by injection h with h; exact h.symm⟩
  · right
    simp only [h1, if_false] at h
    by_cases h2 : lower old ∈ e.erase old
    · simp [h2] at h
    · simp only [h2, if_false] at h
      exact ⟨h1, h2, by injection h with h; exact h.symm⟩

/-- An iteration aborts exactly when the key is not lower-case and its
lower-case form is present among the other keys. -/
theorem makeLowercaseBody_error {e : Entries} {old : String} {v : Slice} {a : Abort}
    (h : makeLowercaseBody lower e old v = .error a) :
    lower old ≠ old ∧ lower old ∈ e.erase old := by
  unfold makeLowercaseBody at h
  by_cases h1 : lower old = old
  · simp [h1] at h
  · by_cases h2 : lower old ∈ e.erase old
    · exact ⟨h1, h2⟩
    · simp [h1, h2] at h

/-- With an idempotent `lower`, an iteration on a present key of a
collision-free map completes and leaves a collision-free map. -/
theorem makeLowercaseBody_free (hidem : ∀ s, lower (lower s) = lower s)
    {e : Entries} {old : String} (v : Slice)
    (hfree : CollisionFree lower (.mk e)) (hold : old ∈ e) :
    ∃ e', makeLowercaseBody lower e old v = .ok e' ∧ CollisionFree lower (.mk e') := by
  unfold makeLowercaseBody
  by_cases h1 : lower old = old
  · exact ⟨e, by simp [h1], hfree⟩
  · have h2 : lower old ∉ e.erase old := by
      intro hin
      rw [Finmap.mem_erase] at hin
      exact h1 (hfree _ (mem_keys_mk.2 hin.2) _ (mem_keys_mk.2 hold) (hidem old))
    refine ⟨(e.erase old).insert (lower old) v, by simp [h1, h2], ?_⟩
    intro k1 hk1 k2 hk2 heq
    rw [mem_keys_mk, Finmap.mem_insert, Finmap.mem_erase] at hk1 hk2
    rcases hk1 with hk1 | ⟨hk1n, hk1⟩ <;> rcases hk2 with hk2 | ⟨hk2n, hk2⟩
    · rw [hk1, hk2]
    · exfalso
      apply hk2n
      apply hfree _ (mem_keys_mk.2 hk2) _ (mem_keys_mk.2 hold)
      rw [← heq, hk1, hidem]
    · exfalso
      apply hk1n
      apply hfree _ (mem_keys_mk.2 hk1) _ (mem_keys_mk.2 hold)
      rw [heq, hk2, hidem]
    · exact hfree _ (mem_keys_mk.2 hk1) _ (mem_keys_mk.2 hk2) heq

/-- The loop of `makeLowercase` completes on a collision-free map, for every
visiting schedule. -/
theorem makeLowercaseLoop_free (hidem : ∀ s, lower (lower s) = lower s)
    (order : List String) :
    ∀ e : Entries, CollisionFree lower (.mk e) →
      ∃ e', makeLowercaseLoop lower order e = .ok e' := by
  induction order with
  | nil => intro e _; exact ⟨e, rfl⟩
  | cons x xs ih =>
    intro e hfree
    unfold makeLowercaseLoop
    cases hx : e.lookup x with
    | none => exact ih e hfree
    | some v =>
      obtain ⟨e1, h1, hfree1⟩ :=
        makeLowercaseBody_free lower hidem v hfree (Finmap.mem_of_lookup_eq_some hx)
      simp only [h1]
      exact ih e1 hfree1

/-- An iteration that completes keeps, for every lower-case form `c`, the
values stored under the keys whose lower-case form is `c`. -/
theorem makeLowercaseBody_rel (hidem : ∀ s, lower (lower s) = lower s)
    {e e' : Entries} {old : String} {v : Slice} (hold : e.lookup old = some v)
    (h : makeLowercaseBody lower e old v = .ok e') (c : String) (w : Slice) :
    (∃ k, e'.lookup k = some w ∧ lower k = c) ↔ (∃ k, e.lookup k = some w ∧ lower k = c) := by
  rcases makeLowercaseBody_ok lower h with ⟨_, rfl⟩ | ⟨h1, h2, rfl⟩
  · rfl
  · have hnot : e.lookup (lower old) = none := by
      rw [Finmap.lookup_eq_none]
      intro hin
      exact h2 (Finmap.mem_erase.2 ⟨h1, hin⟩)
    constructor
    · rintro ⟨k, hk, hc⟩
      rw [lookup_insert_erase] at hk
      by_cases hb : k = lower old
      · rw [if_pos hb] at hk
        refine ⟨old, ?_, ?_⟩
        · rw [hold, ← hk]
        · rw [← hc, hb, hidem]
      · rw [if_neg hb] at hk
        by_cases ha : k = old
        · rw [if_pos ha] at hk; cases hk
        · rw [if_neg ha] at hk
          exact ⟨k, hk, hc⟩
    · rintro ⟨k, hk, hc⟩
      by_cases ha : k = old
      · refine ⟨lower old, ?_, ?_⟩
        · rw [lookup_insert_erase, if_pos rfl, ← hold, ← ha, hk]
        · rw [hidem, ← ha, hc]
      · have hb : k ≠ lower old := by
          intro hb
          rw [hb, hnot] at hk
          cases hk
        refine ⟨k, ?_, hc⟩
        rw [lookup_insert_erase, if_neg hb, if_neg ha, hk]

/-- The loop of `makeLowercase`, when it completes, keeps for every lower-case
form the values stored under the keys of that form. -/
theorem makeLowercaseLoop_rel (hidem : ∀ s, lower (lower s) = lower s)
    (order : List String) :
    ∀ e e' : Entries, makeLowercaseLoop lower order e = .ok e' → ∀ (c : String) (w : Slice),
      ((∃ k, e'.lookup k = some w ∧ lower k = c) ↔ (∃ k, e.lookup k = some w ∧ lower k = c)) := by
  induction order with
  | nil =>
    intro e e' h c w
    simp only [makeLowercaseLoop] at h
    injection h with h
    rw [h]
  | cons x xs ih =>
    intro e e' h c w
    unfold makeLowercaseLoop at h
    cases hx : e.lookup x with
    | none =>
      simp only [hx] at h
      exact ih e e' h c w
    | some v =>
      simp only [hx] at h
      cases hb : makeLowercaseBody lower e x v with
      | error a => simp [hb] at h
      | ok e1 =>
        simp only [hb] at h
        rw [ih e1 e' h c w]
        exact makeLowercaseBody_rel lower hidem hx hb c w

/-- After the loop of `makeLowercase` every key is lower-case, or is a key of
the initial map that the schedule does not contain. -/
theorem makeLowercaseLoop_keys (hidem : ∀ s, lower (lower s) = lower s)
    (order : List String) :
    ∀ e e' : Entries, makeLowercaseLoop lower order e = .ok e' →
      ∀ k ∈ e', lower k = k ∨ (k ∈ e ∧ k ∉ order) := by
  induction order with
  | nil =>
    intro e e' h k hk
    simp only [makeLowercaseLoop] at h
    injection h with h
    subst h
    exact Or.inr ⟨hk, List.not_mem_nil k⟩
  | cons x xs ih =>
    intro e e' h k hk
    unfold makeLowercaseLoop at h
    cases hx : e.lookup x with
    | none =>
      simp only [hx] at h
      rcases ih e e' h k hk with hl | ⟨hin, hnot⟩
      · exact Or.inl hl
      · refine Or.inr ⟨hin, ?_⟩
        intro hmem
        rcases List.mem_cons.1 hmem with hkx | hmem
        · rw [hkx] at hin
          exact (Finmap.lookup_eq_none.1 hx) hin
        · exact hnot hmem
    | some v =>
      simp only [hx] at h
      cases hb : makeLowercaseBody lower e x v with
      | error a => simp [hb] at h
      | ok e1 =>
        simp only [hb] at h
        rcases ih e1 e' h k hk with hl | ⟨hin, hnot⟩
        · exact Or.inl hl
        · rcases makeLowercaseBody_ok lower hb with ⟨hlx, rfl⟩ | ⟨_, _, rfl⟩
          · by_cases hkx : k = x
            · left; rw [hkx]; exact hlx
            · refine Or.inr ⟨hin, ?_⟩
              intro hmem
              rcases List.mem_cons.1 hmem with h1 | h1
              · exact hkx h1
              · exact hnot h1
          · rw [Finmap.mem_insert, Finmap.mem_erase] at hin
            rcases hin with hin | ⟨hkx, hin⟩
            · left; rw [hin, hidem]
            · refine Or.inr ⟨hin, ?_⟩
              intro hmem
              rcases List.mem_cons.1 hmem with h1 | h1
              · exact hkx h1
              · exact hnot h1

/-- An iteration that completes does not remove a collision: if the map is
collision-free afterwards, it was so before. -/
theorem makeLowercaseBody_free_back (hidem : ∀ s, lower (lower s) = lower s)
    {e e' : Entries} {old : String} {v : Slice}
    (h : makeLowercaseBody lower e old v = .ok e')
    (hfree : CollisionFree lower (.mk e')) : CollisionFree lower (.mk e) := by
  rcases makeLowercaseBody_ok lower h with ⟨_, rfl⟩ | ⟨h1, h2, rfl⟩
  · exact hfree
  · have hmem : ∀ k, k ∈ e → (if k = old then lower old else k) ∈
        (Header.mk ((e.erase old).insert (lower old) v)).keys := by
      intro k hk
      rw [mem_keys_mk, Finmap.mem_insert, Finmap.mem_erase]
      by_cases hko : k = old
      · left; rw [if_pos hko]
      · right; rw [if_neg hko]; exact ⟨hko, hk⟩
    have hlow : ∀ k, lower (if k = old then lower old else k) = lower k := by
      intro k
      by_cases hko : k = old
      · rw [if_pos hko, hidem, hko]
      · rw [if_neg hko]
    intro k1 hk1 k2 hk2 heq
    rw [mem_keys_mk] at hk1 hk2
    have hphi := hfree _ (hmem k1 hk1) _ (hmem k2 hk2) (by rw [hlow, hlow, heq])
    by_cases hk1o : k1 = old <;> by_cases hk2o : k2 = old
    · rw [hk1o, hk2o]
    · exfalso
      rw [if_pos hk1o, if_neg hk2o] at hphi
      exact h2 (Finmap.mem_erase.2 ⟨by rw [hphi]; exact hk2o, by rw [hphi]; exact hk2⟩)
    · exfalso
      rw [if_neg hk1o, if_pos hk2o] at hphi
      exact h2 (Finmap.mem_erase.2 ⟨by rw [← hphi]; exact hk1o, by rw [← hphi]; exact hk1⟩)
    · rw [if_neg hk1o, if_neg hk2o] at hphi
      exact hphi

/-- The loop of `makeLowercase`, when it completes, does not remove a
collision. -/
theorem makeLowercaseLoop_free_back (hidem : ∀ s, lower (lower s) = lower s)
    (order : List String) :
    ∀ e e' : Entries, makeLowercaseLoop lower order e = .ok e' →
      CollisionFree lower (.mk e') → CollisionFree lower (.mk e) := by
  induction order with
  | nil =>
    intro e e' h hfree
    simp only [makeLowercaseLoop] at h
    injection h with h
    rw [h]; exact hfree
  | cons x xs ih =>
    intro e e' h hfree
    unfold makeLowercaseLoop at h
    cases hx : e.lookup x with
    | none =>
      simp only [hx] at h
      exact ih e e' h hfree
    | some v =>
      simp only [hx] at h
      cases hb : makeLowercaseBody lower e x v with
      | error a => simp [hb] at h
      | ok e1 =>
        simp only [hb] at h
        exact makeLowercaseBody_free_back lower hidem hb (ih e1 e' h hfree)

/-- A map whose keys are all lower-case is collision-free. -/
theorem CollisionFree_of_AllLower {h : Header} (hl : AllLower lower h) :
    CollisionFree lower h := by
  intro k1 hk1 k2 hk2 heq
  rw [← hl k1 hk1, ← hl k2 hk2, heq]

/-- When `makeLowercase` returns under a covering schedule, every key of the
result is lower-case. -/
theorem makeLowercase_AllLower (hidem : ∀ s, lower (lower s) = lower s)
    {order : List String} {m r : Header} (hcov : Covers order m)
    (h : makeLowercase lower order m = .ok r) : AllLower lower r := by
  cases m with
  | nil =>
    simp only [makeLowercase] at h
    injection h with h
    subst h
    intro k hk
    simp [Header.keys] at hk
  | mk e =>
    unfold makeLowercase at h
    cases hl : makeLowercaseLoop lower order e with
    | error a => simp [hl] at h
    | ok e' =>
      simp only [hl] at h
      injection h with h
      subst h
      intro k hk
      rcases makeLowercaseLoop_keys lower hidem order e e' hl k (mem_keys_mk.1 hk) with
        hk1 | ⟨hin, hnot⟩
      · exact hk1
      · exact absurd (hcov k (mem_keys_mk.2 hin)) hnot

/-- Under a covering schedule `makeLowercase` aborts on every map that has a
collision. -/
theorem makeLowercase_collision (hidem : ∀ s, lower (lower s) = lower s)
    {order : List String} {m : Header} (hcov : Covers order m)
    (hcol : ¬ CollisionFree lower m) : ∃ a, makeLowercase lower order m = .error a := by
  cases hr : makeLowercase lower order m with
  | error a => exact ⟨a, rfl⟩
  | ok r =>
    exfalso
    apply hcol
    have hlow := makeLowercase_AllLower lower hidem hcov hr
    cases m with
    | nil =>
      intro k1 hk1
      simp [Header.keys] at hk1
    | mk e =>
      unfold makeLowercase at hr
      cases hl : makeLowercaseLoop lower order e with
      | error a => simp [hl] at hr
      | ok e' =>
        simp only [hl] at hr
        injection hr with hr
        subst hr
        exact makeLowercaseLoop_free_back lower hidem order e e' hl
          (CollisionFree_of_AllLower lower hlow)

/-- Under a covering schedule `makeLowercase` returns on every collision-free
map; the result holds under each key exactly the values the map held under the
keys with that lower-case form. -/
theorem makeLowercase_returns (hidem : ∀ s, lower (lower s) = lower s)
    {order : List String} {m : Header} (hcov : Covers order m)
    (hfree : CollisionFree lower m) :
    ∃ r, makeLowercase lower order m = .ok r ∧ (r = .nil ↔ m = .nil) ∧
      (∀ c, c ∈ r.keys ↔ ∃ k ∈ m.keys, lower k = c) ∧
      (∀ k ∈ m.keys, r.index (lower k) = m.index k) := by
  cases m with
  | nil =>
    refine ⟨.nil, rfl, Iff.rfl, ?_, ?_⟩
    · intro c; simp [Header.keys]
    · intro k hk; simp [Header.keys] at hk
  | mk e =>
    obtain ⟨e', hl⟩ := makeLowercaseLoop_free lower hidem order e hfree
    have hr : makeLowercase lower order (.mk e) = .ok (.mk e') := by
      simp [makeLowercase, hl]
    have hlow := makeLowercase_AllLower lower hidem hcov hr
    have hrel := makeLowercaseLoop_rel lower hidem order e e' hl
    have hval : ∀ k ∈ e, e'.lookup (lower k) = e.lookup k := by
      intro k hk
      obtain ⟨w, hw⟩ := Finmap.mem_iff.1 hk
      obtain ⟨k', hk', hc⟩ := (hrel (lower k) w).2 ⟨k, hw, rfl⟩
      have hk'low : lower k' = k' := hlow k' (mem_keys_mk.2 (Finmap.mem_of_lookup_eq_some hk'))
      rw [hw, ← hc, hk'low, hk']
    refine ⟨.mk e', hr, by simp, ?_, ?_⟩
    · intro c
      rw [mem_keys_mk]
      constructor
      · intro hc
        obtain ⟨w, hw⟩ := Finmap.mem_iff.1 hc
        obtain ⟨k, hk, hkc⟩ := (hrel c w).1 ⟨c, hw, hlow c (mem_keys_mk.2 hc)⟩
        exact ⟨k, mem_keys_mk.2 (Finmap.mem_of_lookup_eq_some hk), hkc⟩
      · rintro ⟨k, hk, rfl⟩
        rw [mem_keys_mk] at hk
        obtain ⟨w, hw⟩ := Finmap.mem_iff.1 hk
        exact Finmap.mem_of_lookup_eq_some ((hval k hk).trans hw)
    · intro k hk
      exact hval k (mem_keys_mk.1 hk)

/-- What the copying loop of `From` stores under each key. -/
theorem fromLoop_lookup (e : Entries) (order : List String) :
    ∀ (acc : Entries) (x : String), (fromLoop e order acc).lookup x =
      if x ∈ order ∧ x ∈ e then e.lookup x else acc.lookup x := by
  induction order with
  | nil => intro acc x; simp [fromLoop]
  | cons y ys ih =>
    intro acc x
    unfold fromLoop
    cases hy : e.lookup y with
    | none =>
      simp only []
      rw [ih]
      have hne : y ∉ e := Finmap.lookup_eq_none.1 hy
      by_cases h1 : x ∈ ys ∧ x ∈ e
      · rw [if_pos h1, if_pos ⟨List.mem_cons_of_mem _ h1.1, h1.2⟩]
      · rw [if_neg h1, if_neg]
        rintro ⟨hm, hx⟩
        rcases List.mem_cons.1 hm with hxy | hm
        · exact hne (hxy ▸ hx)
        · exact h1 ⟨hm, hx⟩
    | some v =>
      have hye : y ∈ e := Finmap.mem_of_lookup_eq_some hy
      have hstep : (if v = Slice.nil then fromLoop e ys (acc.insert y Slice.nil)
          else fromLoop e ys (acc.insert y (Slice.mk ([] ++ v.elems)))) =
          fromLoop e ys (acc.insert y v) := by
        cases v with
        | nil => rfl
        | mk l => simp [Slice.elems]
      simp only []
      rw [hstep, ih]
      by_cases h1 : x ∈ ys ∧ x ∈ e
      · rw [if_pos h1, if_pos ⟨List.mem_cons_of_mem _ h1.1, h1.2⟩]
      · rw [if_neg h1]
        by_cases hxy : x = y
        · subst hxy
          rw [Finmap.lookup_insert, if_pos ⟨List.mem_cons_self _ _, hye⟩, hy]
        · rw [Finmap.lookup_insert_of_ne _ hxy, if_neg]
          rintro ⟨hm, hx⟩
          rcases List.mem_cons.1 hm with h2 | hm
          · exact hxy h2
          · exact h1 ⟨hm, hx⟩

/-- Under a covering schedule the copying loop of `From` builds a map with the
contents of the source. -/
theorem fromLoop_eq (e : Entries) (order : List String) (hcov : Covers order (.mk e)) :
    fromLoop e order ∅ = e := by
  apply Finmap.ext_lookup
  intro x
  rw [fromLoop_lookup]
  by_cases hx : x ∈ e
  · rw [if_pos ⟨hcov x (mem_keys_mk.2 hx), hx⟩]
  · rw [if_neg (fun h => hx h.2), Finmap.lookup_empty, Finmap.lookup_eq_none.2 hx]



/-- The copy that `From` normalises has the keys and the values of the source. -/
theorem From_eq (order1 order2 : List String) (m : Header) (h1 : Covers order1 m) :
    ∃ e : Entries, From lower order1 order2 m = makeLowercase lower order2 (.mk e) ∧
      (Header.mk e).keys = m.keys ∧ (∀ k, (Header.mk e).index k = m.index k) := by
  cases m with
  | nil => exact ⟨∅, rfl, rfl, fun k => by simp [Header.index]⟩
  | mk e =>
    refine ⟨e, ?_, rfl, fun k => rfl⟩
    simp [From, fromLoop_eq e order1 h1]

end Aux

/-! ## Construction -/

/-- C1: for an idempotent key transformation and every source map in which no
two distinct keys share a lower-case form, `From` returns, whatever the
visiting orders of its two loops (any schedules covering the keys); the
returned header is non-nil, its key set is exactly the set of lower-case forms
of the keys of the source, and it holds under `lower k` the slice the source
holds under `k`.  When the source has no key (the nil map, the empty map) the
returned header is the empty header. -/
theorem From_normalizes (lower : String → String)
    (hidem : ∀ s, lower (lower s) = lower s) (m : Header)
    (order1 order2 : List String) (h1 : Covers order1 m) (h2 : Covers order2 m)
    (hfree : CollisionFree lower m) :
    ∃ r : Entries, From lower order1 order2 m = .ok (.mk r) ∧
      (∀ c, c ∈ (Header.mk r).keys ↔ ∃ k ∈ m.keys, lower k = c) ∧
      (∀ k ∈ m.keys, (Header.mk r).index (lower k) = m.index k) ∧
      (m.keys = ∅ → Header.mk r = New) := by
  obtain ⟨e, hfrom, hkeys, hidx⟩ := From_eq lower order1 order2 m h1
  have hcov : Covers order2 (.mk e) := by
    intro k hk; rw [hkeys] at hk; exact h2 k hk
  have hfree' : CollisionFree lower (.mk e) := by
    intro k1 hk1 k2 hk2; rw [hkeys] at hk1 hk2; exact hfree k1 hk1 k2 hk2
  obtain ⟨r, hr, hnil, hk, hv⟩ := makeLowercase_returns lower hidem hcov hfree'
  cases r with
  | nil => simp at hnil
  | mk r =>
    rw [hkeys] at hk hv
    refine ⟨r, hfrom.trans hr, hk, ?_, ?_⟩
    · intro k hkm; rw [hv k hkm, hidx]
    · intro hempty
      have : r = ∅ := by
        apply Finmap.ext_lookup
        intro x
        rw [Finmap.lookup_empty, Finmap.lookup_eq_none, ← mem_keys_mk, hk]
        rintro ⟨k, hkm, _⟩
        rw [hempty] at hkm
        simp at hkm
      rw [this]; rfl

/-- C2: for an idempotent key transformation and every source map with two
distinct keys of the same lower-case form, both `From` and `Using` abort,
whatever the visiting orders (any schedules covering the keys). -/
theorem collision_aborts (lower : String → String)
    (hidem : ∀ s, lower (lower s) = lower s) (m : Header)
    (order1 order2 order : List String) (h1 : Covers order1 m) (h2 : Covers order2 m)
    (h3 : Covers order m) (k1 k2 : String) (hk1 : k1 ∈ m.keys) (hk2 : k2 ∈ m.keys)
    (hne : k1 ≠ k2) (heq : lower k1 = lower k2) :
    (∃ a, From lower order1 order2 m = .error a) ∧ (∃ a, Using lower order m = .error a) := by
  have hcol : ¬ CollisionFree lower m := fun hfree => hne (hfree k1 hk1 k2 hk2 heq)
  constructor
  · obtain ⟨e, hfrom, hkeys, _⟩ := From_eq lower order1 order2 m h1
    have hcov : Covers order2 (.mk e) := by
      intro k hk; rw [hkeys] at hk; exact h2 k hk
    have hcol' : ¬ CollisionFree lower (.mk e) := by
      intro hfree
      apply hcol
      intro a ha b hb
      rw [← hkeys] at ha hb
      exact hfree a ha b hb
    obtain ⟨a, ha⟩ := makeLowercase_collision lower hidem hcov hcol'
    exact ⟨a, hfrom.trans ha⟩
  · exact makeLowercase_collision lower hidem h3 hcol

/-- C3: for an idempotent key transformation and every map in which no two
distinct keys share a lower-case form, `Using` returns, whatever the visiting
order (any schedule covering the keys); the key set of the result is
exactly the set of lower-case forms of the keys of the map, the result holds
under `lower k` the slice the map held under `k`, and every key that was
already lower-case keeps its entry. -/
theorem Using_normalizes (lower : String → String)
    (hidem : ∀ s, lower (lower s) = lower s) (m : Header)
    (order : List String) (hcov : Covers order m) (hfree : CollisionFree lower m) :
    ∃ r : Header, Using lower order m = .ok r ∧
      (∀ c, c ∈ r.keys ↔ ∃ k ∈ m.keys, lower k = c) ∧
      (∀ k ∈ m.keys, r.index (lower k) = m.index k) ∧
      (∀ k ∈ m.keys, lower k = k → r.index k = m.index k) := by
  obtain ⟨r, hr, _, hk, hv⟩ := makeLowercase_returns lower hidem hcov hfree
  refine ⟨r, hr, hk, hv, ?_⟩
  intro k hkm hlow
  have := hv k hkm
  rwa [hlow] at this

/-- Witness of C1, on the source map of the tests. -/
theorem From_normalizes_witness :
    ∃ r : Entries,
      From toLowerLatin1 ["Content-Type", "Content-Length"]
        ["Content-Length", "content-length", "Content-Type"] sampleHeader = .ok (.mk r) ∧
      (∀ c, c ∈ (Header.mk r).keys ↔ ∃ k ∈ sampleHeader.keys, toLowerLatin1 k = c) ∧
      (∀ k ∈ sampleHeader.keys, (Header.mk r).index (toLowerLatin1 k) = sampleHeader.index k) ∧
      (sampleHeader.keys = ∅ → Header.mk r = New) :=
  From_normalizes toLowerLatin1 toLowerLatin1_idem sampleHeader _ _
    (by decide) (by decide) (by decide)

/-- Witness of C2, on the source map of the panic tests. -/
theorem collision_aborts_witness :
    (∃ a, From toLowerLatin1 ["Content-Type", "cOnTenT-tYpE"]
        ["cOnTenT-tYpE", "Content-Type"] collidingHeader = .error a) ∧
      (∃ a, Using toLowerLatin1 ["content-type", "Content-Type", "cOnTenT-tYpE"]
        collidingHeader = .error a) :=
  collision_aborts toLowerLatin1 toLowerLatin1_idem collidingHeader _ _ _
    (by decide) (by decide) (by decide) "Content-Type" "cOnTenT-tYpE"
    (by decide) (by decide) (by decide) (by decide)

/-- Witness of C3, on the source map of the tests. -/
theorem Using_normalizes_witness :
    ∃ r : Header,
      Using toLowerLatin1 ["Content-Length", "content-length", "Content-Type"] sampleHeader =
        .ok r ∧
      (∀ c, c ∈ r.keys ↔ ∃ k ∈ sampleHeader.keys, toLowerLatin1 k = c) ∧
      (∀ k ∈ sampleHeader.keys, r.index (toLowerLatin1 k) = sampleHeader.index k) ∧
      (∀ k ∈ sampleHeader.keys, toLowerLatin1 k = k → r.index k = sampleHeader.index k) :=
  Using_normalizes toLowerLatin1 toLowerLatin1_idem sampleHeader _
    (by decide) (by decide)

/-! ## The invariant -/

/-- C4: for an idempotent key transformation, the predicate "every key present
is its own lower-case form" holds for `New`, holds for the result of `From` and of `Using` whenever they return, and
is preserved by `Add`, `Set` and `Del` for all key and value strings; `Add`
and `Set` return on every non-nil header. -/
theorem AllLower_invariant (lower : String → String)
    (hidem : ∀ s, lower (lower s) = lower s) :
    AllLower lower New ∧
    (∀ (m : Header) (order1 order2 : List String) (r : Header), Covers order1 m →
      Covers order2 m → From lower order1 order2 m = .ok r → AllLower lower r) ∧
    (∀ (m : Header) (order : List String) (r : Header), Covers order m →
      Using lower order m = .ok r → AllLower lower r) ∧
    (∀ (h : Header) (key value : String), AllLower lower h →
      ((∀ r, Add lower h key value = .ok r → AllLower lower r) ∧
        (h ≠ .nil → ∃ r, Add lower h key value = .ok r)) ∧
      ((∀ r, Set lower h key value = .ok r → AllLower lower r) ∧
        (h ≠ .nil → ∃ r, Set lower h key value = .ok r)) ∧
      AllLower lower (Del lower h key)) := by
  refine ⟨?_, ?_, ?_, ?_⟩
  · intro k hk
    simp [New, Header.keys] at hk
  · intro m order1 order2 r h1 h2 hr
    obtain ⟨e, hfrom, hkeys, _⟩ := From_eq lower order1 order2 m h1
    have hcov : Covers order2 (.mk e) := by
      intro k hk; rw [hkeys] at hk; exact h2 k hk
    exact makeLowercase_AllLower lower hidem hcov (hfrom ▸ hr)
  · intro m order r hcov hr
    exact makeLowercase_AllLower lower hidem hcov hr
  · intro h key value hlow
    have hassign : ∀ (v : Slice) (r : Header),
        h.assign (lower key) v = .ok r → AllLower lower r := by
      intro v r hr
      cases h with
      | nil => simp [Header.assign] at hr
      | mk e =>
        simp only [Header.assign] at hr
        injection hr with hr
        subst hr
        intro k hk
        rw [mem_keys_mk, Finmap.mem_insert] at hk
        rcases hk with hk | hk
        · rw [hk, hidem]
        · exact hlow k (mem_keys_mk.2 hk)
    have hret : ∀ v : Slice, h ≠ .nil → ∃ r, h.assign (lower key) v = .ok r := by
      intro v hne
      cases h with
      | nil => exact absurd rfl hne
      | mk e => exact ⟨_, rfl⟩
    refine ⟨⟨fun r hr => hassign _ r hr, fun hne => hret _ hne⟩,
      ⟨fun r hr => hassign _ r hr, fun hne => hret _ hne⟩, ?_⟩
    cases h with
    | nil => exact hlow
    | mk e =>
      intro k hk
      simp only [Del, Header.delete] at hk
      rw [mem_keys_mk, Finmap.mem_erase] at hk
      exact hlow k (mem_keys_mk.2 hk.2)

/-- Witness of C4: the invariant on `New`, on the results of `From` and `Using`
for the source map of the tests, and across `Add`, `Set` and `Del` on a
normalised header. -/
theorem AllLower_invariant_witness :
    AllLower toLowerLatin1 New ∧
    AllLower toLowerLatin1 (.mk (Finmap.insert "content-type" (.mk ["foo"])
      (Finmap.insert "content-length" (.mk ["3"]) ∅))) ∧
    (∀ r, Add toLowerLatin1 lowerHeader "Stop-Writing-Like-This" "Please" = .ok r →
      AllLower toLowerLatin1 r) ∧
    (∃ r, Set toLowerLatin1 lowerHeader "oTHerKEY" "value" = .ok r) ∧
    AllLower toLowerLatin1 (Del toLowerLatin1 lowerHeader "conTENT-TYpe") :=
  have hinv := AllLower_invariant toLowerLatin1 toLowerLatin1_idem
  ⟨hinv.1,
    hinv.2.1 sampleHeader ["Content-Type", "Content-Length"] ["Content-Length", "Content-Type"] _
      (by decide) (by decide) (by decide),
    (hinv.2.2.2 lowerHeader "Stop-Writing-Like-This" "Please" (by decide)).1.1,
    (hinv.2.2.2 lowerHeader "oTHerKEY" "value" (by decide)).2.1.2 (by decide),
    (hinv.2.2.2 lowerHeader "conTENT-TYpe" "" (by decide)).2.2⟩

/-! ## The methods -/

/-- C5: for every header and every two keys with the same lower-case form,
`Get` returns the same string and `Values` the same slice. -/
theorem Get_Values_congr (lower : String → String) (h : Header) (k1 k2 : String)
    (heq : lower k1 = lower k2) :
    Get lower h k1 = Get lower h k2 ∧ Values lower h k1 = Values lower h k2 := by
  unfold Get Values
  rw [heq]
  exact ⟨rfl, rfl⟩

/-- Witness of C5, with the keys of the tests of `Values`. -/
theorem Get_Values_congr_witness :
    Get toLowerLatin1 lowerHeader "Content-Type" = Get toLowerLatin1 lowerHeader "cOnTeNt-TyPe" ∧
      Values toLowerLatin1 lowerHeader "Content-Type" =
        Values toLowerLatin1 lowerHeader "cOnTeNt-TyPe" :=
  Get_Values_congr toLowerLatin1 lowerHeader "Content-Type" "cOnTeNt-TyPe" (by decide)

/-- C7: on a non-nil header `Set` returns; afterwards `Values` is the
one-element sequence holding `value` for every key with the lower-case form of
`key`, every other key has the entry it had, and the number of keys is one more
if `lower key` was absent and the same otherwise. -/
theorem Set_single (lower : String → String) (e : Entries) (key value : String) :
    ∃ r : Entries, Set lower (.mk e) key value = .ok (.mk r) ∧
      (∀ k, lower k = lower key → Values lower (.mk r) k = .mk [value]) ∧
      (∀ k, k ≠ lower key → (Header.mk r).index k = (Header.mk e).index k) ∧
      (Header.mk r).len =
        if lower key ∈ (Header.mk e).keys then (Header.mk e).len else (Header.mk e).len + 1 := by
  refine ⟨e.insert (lower key) (.mk [value]), rfl, ?_, ?_, ?_⟩
  · intro k hk
    simp only [Values, Header.index]
    rw [hk, Finmap.lookup_insert]
  · intro k hk
    simp only [Header.index]
    exact Finmap.lookup_insert_of_ne _ hk
  · simp only [Header.len, Header.keys, keys_insert]
    by_cases hin : lower key ∈ e.keys
    · rw [if_pos hin, Finset.insert_eq_of_mem hin]
    · rw [if_neg hin, Finset.card_insert_of_not_mem hin]

/-- Witness of C7: the first `Set` of the tests, replacing two values. -/
theorem Set_single_witness :
    Set toLowerLatin1 lowerHeader "contenT-TYPE" "BAR" =
        .ok (.mk (Finmap.insert "content-type" (.mk ["BAR"])
          (Finmap.insert "nonsense" (.mk ["3", "4"]) ∅))) ∧
      ∃ r : Entries, Set toLowerLatin1 lowerHeader "contenT-TYPE" "BAR" = .ok (.mk r) ∧
        Values toLowerLatin1 (.mk r) "conTENT-type" = .mk ["BAR"] ∧
        (Header.mk r).len = 2 := by
  refine ⟨by decide, ?_⟩
  obtain ⟨r, hr, hv, _, hlen⟩ := Set_single toLowerLatin1
    (Finmap.insert "content-type" (.mk ["foo", "bar"]) (Finmap.insert "nonsense" (.mk ["3", "4"]) ∅))
    "contenT-TYPE" "BAR"
  refine ⟨r, hr, hv "conTENT-type" (by decide), ?_⟩
  rw [hlen]
  decide

/-- C8: for every header and keys `k1`, `k2` with the same lower-case form:
after `Del k1` the key `lower k1` is not present, `Get k2` is the empty string
and `Values k2` the nil slice, and every other key has the entry it had; when
`lower k1` was not present, `Del k1` leaves the header as it was.  `Del` is a
total function: it cannot fail. -/
theorem Del_removes (lower : String → String) (h : Header) (k1 k2 : String)
    (heq : lower k1 = lower k2) :
    lower k1 ∉ (Del lower h k1).keys ∧
      Get lower (Del lower h k1) k2 = "" ∧
      Values lower (Del lower h k1) k2 = .nil ∧
      (Values lower (Del lower h k1) k2).len = 0 ∧
      (∀ k, k ≠ lower k1 → (Del lower h k1).index k = h.index k) ∧
      (lower k1 ∉ h.keys → Del lower h k1 = h) := by
  have hidx : (Del lower h k1).index (lower k2) = none := by
    rw [← heq]
    cases h with
    | nil => rfl
    | mk e => simp [Del, Header.delete, Header.index, Finmap.lookup_erase]
  refine ⟨?_, ?_, ?_, ?_, ?_, ?_⟩
  · rw [← index_eq_none_iff, heq]
    exact hidx
  · simp only [Get, hidx]
  · simp only [Values, hidx]
  · simp only [Values, hidx]
    rfl
  · intro k hk
    cases h with
    | nil => rfl
    | mk e =>
      simp only [Del, Header.delete, Header.index]
      exact Finmap.lookup_erase_ne hk
  · intro hnot
    cases h with
    | nil => rfl
    | mk e =>
      simp only [Del, Header.delete]
      congr 1
      apply Finmap.ext_lookup
      intro x
      by_cases hx : x = lower k1
      · rw [hx, Finmap.lookup_erase]
        exact (Finmap.lookup_eq_none.2 (fun hin => hnot (mem_keys_mk.2 hin))).symm
      · exact Finmap.lookup_erase_ne hx

/-- Witness of C8: the `Del` and `Get` of the tests. -/
theorem Del_removes_witness :
    toLowerLatin1 "conTENT-TYpe" ∉ (Del toLowerLatin1 lowerHeader "conTENT-TYpe").keys ∧
      Get toLowerLatin1 (Del toLowerLatin1 lowerHeader "conTENT-TYpe") "ConTent-tyPE" = "" ∧
      Values toLowerLatin1 (Del toLowerLatin1 lowerHeader "conTENT-TYpe") "ConTent-tyPE" = .nil ∧
      (Values toLowerLatin1 (Del toLowerLatin1 lowerHeader "conTENT-TYpe") "ConTent-tyPE").len = 0 ∧
      (∀ k, k ≠ toLowerLatin1 "conTENT-TYpe" →
        (Del toLowerLatin1 lowerHeader "conTENT-TYpe").index k = lowerHeader.index k) ∧
      (toLowerLatin1 "conTENT-TYpe" ∉ lowerHeader.keys →
        Del toLowerLatin1 lowerHeader "conTENT-TYpe" = lowerHeader) :=
  Del_removes toLowerLatin1 lowerHeader "conTENT-TYpe" "ConTent-tyPE" (by decide)

/-- C9: for every header and key, `Get` is the first element of the sequence
stored under `lower key` when that key is present with a non-empty sequence,
and the empty string when the key is absent, mapped to nil or mapped to an
empty sequence; it is also the first element of `Values key`, or the empty
string when `Values key` has length 0.  `Get` only reads the header. -/
theorem Get_returns_first (lower : String → String) (h : Header) (key : String) :
    (Get lower h key =
      match h.index (lower key) with
      | some (.mk (first :: _)) => first
      | some (.mk []) => ""
      | some .nil => ""
      | none => "") ∧
    (Get lower h key =
      match (Values lower h key).elems with
      | first :: _ => first
      | [] => "") ∧
    ((Values lower h key).len = 0 → Get lower h key = "") := by
  cases hidx : h.index (lower key) with
  | none => simp [Get, Values, hidx, Slice.elems]
  | some values =>
    cases values with
    | nil => simp [Get, Values, hidx, Slice.elems, Slice.len]
    | mk l =>
      cases l with
      | nil => simp [Get, Values, hidx, Slice.elems, Slice.len]
      | cons x xs => simp [Get, Values, hidx, Slice.elems, Slice.len]

/-- Witness of C9: a `Get` of the tests, and a key without values. -/
theorem Get_returns_first_witness :
    Get toLowerLatin1 lowerHeader "Content-Type" = "foo" ∧
      Get toLowerLatin1 (.mk (Finmap.insert "content-type" .nil ∅)) "Content-Type" = "" := by
  refine ⟨?_, ?_⟩
  · rw [(Get_returns_first toLowerLatin1 lowerHeader "Content-Type").1]
    decide
  · exact (Get_returns_first toLowerLatin1 (.mk (Finmap.insert "content-type" .nil ∅))
      "Content-Type").2.2 (by decide)

/-! ## Totality, and keys without values -/

/-- C14 as stated fails on the nil header, which is the zero value of the type
and the result of `Using` on a nil map: `Add` and `Set` panic on it. -/
theorem nil_header_counterexample :
    Using toLowerLatin1 [] .nil = .ok .nil ∧
      Add toLowerLatin1 .nil "a" "v" = .error "assignment to entry in nil map" ∧
      Set toLowerLatin1 .nil "a" "v" = .error "assignment to entry in nil map" ∧
      ¬ ∃ r, Add toLowerLatin1 .nil "" "" = .ok r := by
  refine ⟨by decide, by decide, by decide, ?_⟩
  rintro ⟨r, hr⟩
  have herr : Add toLowerLatin1 .nil "" "" = .error "assignment to entry in nil map" := by
    decide
  rw [herr] at hr
  cases hr

/-- C14, as amended: `Del`, `Get` and `Values` are total functions of the
header and the key, the nil header included, where they find nothing; `Add`
and `Set` return on every non-nil header, for all key and value strings; and
`New`, `From` and `Using` on a non-nil map give non-nil headers. -/
theorem methods_total (lower : String → String) (key value : String) :
    (Del lower .nil key = .nil ∧ Get lower .nil key = "" ∧ Values lower .nil key = .nil) ∧
    (∀ e : Entries, (∃ r : Entries, Add lower (.mk e) key value = .ok (.mk r)) ∧
      (∃ r : Entries, Set lower (.mk e) key value = .ok (.mk r)) ∧
      (∃ r : Entries, Del lower (.mk e) key = .mk r)) ∧
    New ≠ .nil ∧
    (∀ (order1 order2 : List String) (m r : Header),
      From lower order1 order2 m = .ok r → r ≠ .nil) ∧
    (∀ (order : List String) (m r : Header),
      Using lower order m = .ok r → m ≠ .nil → r ≠ .nil) := by
  refine ⟨⟨rfl, rfl, rfl⟩, fun e => ⟨⟨_, rfl⟩, ⟨_, rfl⟩, ⟨_, rfl⟩⟩, ?_, ?_, ?_⟩
  · intro h; cases h
  · intro order1 order2 m r hr hnil
    subst hnil
    unfold From makeLowercase at hr
    simp only [] at hr
    split at hr <;> cases hr
  · intro order m r hr hm hnil
    subst hnil
    cases m with
    | nil => exact hm rfl
    | mk e =>
      unfold Using makeLowercase at hr
      simp only [] at hr
      split at hr <;> cases hr

/-- Witness of C14, as amended: the methods on the header `From` returns for
the source map of the tests, with the empty string as key and as value. -/
theorem methods_total_witness :
    (∃ r : Entries, Add toLowerLatin1 lowerHeader "" "" = .ok (.mk r)) ∧
      (∃ r : Entries, Set toLowerLatin1 lowerHeader "content-type" "" = .ok (.mk r)) ∧
      (Header.mk (Finmap.insert "content-type" (.mk ["foo"])
        (Finmap.insert "content-length" (.mk ["3"]) ∅))) ≠ .nil :=
  ⟨((methods_total toLowerLatin1 "" "").2.1 _).1,
    ((methods_total toLowerLatin1 "content-type" "").2.1 _).2.1,
    (methods_total toLowerLatin1 "" "").2.2.2.1 ["Content-Type", "Content-Length"]
      ["Content-Length", "Content-Type"] sampleHeader _ (by decide)⟩

/-- C16 as stated fails for a key mapped to an empty non-nil sequence, which
is what `From` stores for a source entry holding an empty non-nil slice:
`Values` returns that empty non-nil slice, and the nil slice for an absent
key, and a caller can tell the two apart. -/
theorem Values_empty_counterexample :
    From toLowerLatin1 ["a"] ["a"] (.mk (Finmap.insert "a" (.mk []) ∅)) =
        .ok (.mk (Finmap.insert "a" (.mk []) ∅)) ∧
      Values toLowerLatin1 (.mk (Finmap.insert "a" (.mk []) ∅)) "a" = .mk [] ∧
      Values toLowerLatin1 New "a" = .nil ∧
      Values toLowerLatin1 (.mk (Finmap.insert "a" (.mk []) ∅)) "a" ≠
        Values toLowerLatin1 New "a" := by
  refine ⟨by decide, by decide, by decide, by decide⟩

/-- C16, as amended: when `lower key` is absent from one header and present
with zero values in another, `Get` returns the empty string in both and
`Values` returns in both a slice of length 0, with the same (no) elements; when
the key is mapped to nil, `Values` returns the nil slice in both. -/
theorem no_values_alike (lower : String → String) (h1 h2 : Header) (key : String)
    (values : Slice) (habsent : h1.index (lower key) = none)
    (hpresent : h2.index (lower key) = some values) (hzero : values.len = 0) :
    Get lower h1 key = "" ∧ Get lower h2 key = "" ∧
      (Values lower h1 key).len = 0 ∧ (Values lower h2 key).len = 0 ∧
      (Values lower h1 key).elems = (Values lower h2 key).elems ∧
      (values = .nil → Values lower h1 key = Values lower h2 key) := by
  have hv1 : Values lower h1 key = .nil := by simp only [Values, habsent]
  have hv2 : Values lower h2 key = values := by simp only [Values, hpresent]
  have hel : values.elems = [] := List.length_eq_zero.1 hzero
  refine ⟨?_, ?_, ?_, ?_, ?_, ?_⟩
  · simp only [Get, habsent]
  · simp only [Get, hpresent, hzero, lt_irrefl, dite_false]
  · rw [hv1]; rfl
  · rw [hv2]; exact hzero
  · rw [hv1, hv2, hel]; rfl
  · intro hnil; rw [hv1, hv2, hnil]

/-- Witness of C16, as amended: an absent key against a key mapped to an empty
sequence. -/
theorem no_values_alike_witness :
    Get toLowerLatin1 New "A" = "" ∧
      Get toLowerLatin1 (.mk (Finmap.insert "a" (.mk []) ∅)) "A" = "" ∧
      (Values toLowerLatin1 New "A").len = 0 ∧
      (Values toLowerLatin1 (.mk (Finmap.insert "a" (.mk []) ∅)) "A").len = 0 ∧
      (Values toLowerLatin1 New "A").elems =
        (Values toLowerLatin1 (.mk (Finmap.insert "a" (.mk []) ∅)) "A").elems ∧
      (Slice.mk [] = .nil → Values toLowerLatin1 New "A" =
        Values toLowerLatin1 (.mk (Finmap.insert "a" (.mk []) ∅)) "A") :=
  no_values_alike toLowerLatin1 New (.mk (Finmap.insert "a" (.mk []) ∅)) "A" (.mk [])
    (by decide) (by decide) (by decide)

/-- Deleting a key whose lower-case form is absent leaves the header as it
was. -/
theorem Del_of_absent (lower : String → String) (h : Header) (k : String)
    (habsent : h.index (lower k) = none) : Del lower h k = h := by
  cases h with
  | nil => rfl
  | mk e =>
    simp only [Del, Header.delete]
    congr 1
    apply Finmap.ext_lookup
    intro x
    by_cases hx : x = lower k
    · rw [hx, Finmap.lookup_erase]
      exact habsent.symm
    · exact Finmap.lookup_erase_ne hx

/-- C19: for every header and key that is not lower-case, when the header
holds a non-empty sequence under the key and has no entry for its lower-case
form, `Get` returns the empty string, `Values` the nil slice, and `Del` leaves
the header, the entry under the key included, as it was. -/
theorem mixed_case_entry_unreachable (lower : String → String) (h : Header) (k : String)
    (values : Slice) (hne : k ≠ lower k) (hk : h.index k = some values)
    (hlen : 0 < values.len) (habsent : h.index (lower k) = none) :
    Get lower h k = "" ∧ Values lower h k = .nil ∧ (Values lower h k).len = 0 ∧
      (Del lower h k).index k = some values ∧ Del lower h k = h := by
  have hdel : Del lower h k = h := Del_of_absent lower h k habsent
  refine ⟨?_, ?_, ?_, ?_, hdel⟩
  · simp only [Get, habsent]
  · simp only [Values, habsent]
  · simp only [Values, habsent]; rfl
  · rw [hdel]; exact hk

/-- Witness of C19: the entry written under `Mark` through the original map
after `Using`, as in the tests. -/
theorem mixed_case_entry_unreachable_witness :
    Get toLowerLatin1 (.mk (Finmap.insert "Mark" (.mk ["Mutation"])
        (Finmap.insert "content-type" (.mk ["foo"]) ∅))) "Mark" = "" ∧
      Values toLowerLatin1 (.mk (Finmap.insert "Mark" (.mk ["Mutation"])
        (Finmap.insert "content-type" (.mk ["foo"]) ∅))) "Mark" = .nil ∧
      (Values toLowerLatin1 (.mk (Finmap.insert "Mark" (.mk ["Mutation"])
        (Finmap.insert "content-type" (.mk ["foo"]) ∅))) "Mark").len = 0 ∧
      (Del toLowerLatin1 (.mk (Finmap.insert "Mark" (.mk ["Mutation"])
        (Finmap.insert "content-type" (.mk ["foo"]) ∅))) "Mark").index "Mark" =
          some (.mk ["Mutation"]) ∧
      Del toLowerLatin1 (.mk (Finmap.insert "Mark" (.mk ["Mutation"])
        (Finmap.insert "content-type" (.mk ["foo"]) ∅))) "Mark" =
        .mk (Finmap.insert "Mark" (.mk ["Mutation"])
          (Finmap.insert "content-type" (.mk ["foo"]) ∅)) :=
  mixed_case_entry_unreachable toLowerLatin1 _ "Mark" (.mk ["Mutation"])
    (by decide) (by decide) (by decide) (by decide)

/-! ## Idempotence of normalisation -/

/-- On a map whose keys are all lower-case the loop of `makeLowercase` changes
nothing, whatever the schedule. -/
theorem makeLowercaseLoop_of_lower (lower : String → String) (order : List String) :
    ∀ e : Entries, AllLower lower (.mk e) → makeLowercaseLoop lower order e = .ok e := by
  induction order with
  | nil => intro e _; rfl
  | cons x xs ih =>
    intro e hlow
    unfold makeLowercaseLoop
    cases hx : e.lookup x with
    | none => exact ih e hlow
    | some v =>
      have hlx : lower x = x := hlow x (mem_keys_mk.2 (Finmap.mem_of_lookup_eq_some hx))
      simp only [makeLowercaseBody, hlx, if_true]
      exact ih e hlow

/-- On a header whose keys are all lower-case `makeLowercase` returns the
header as it is. -/
theorem makeLowercase_of_lower (lower : String → String) (order : List String) (h : Header)
    (hlow : AllLower lower h) : makeLowercase lower order h = .ok h := by
  cases h with
  | nil => rfl
  | mk e => simp only [makeLowercase, makeLowercaseLoop_of_lower lower order e hlow]

/-- C17: for every map whose keys are all lower-case, `Using` returns the map
exactly as it was and `From` returns a header with the same contents (the
same header, when the map is non-nil); hence, for an idempotent key
transformation and every collision-free map, `From` of the result of `From`
is that result, and `Using` of the result of `Using` is that result. -/
theorem normalisation_idempotent (lower : String → String) :
    (∀ (h : Header) (order : List String), AllLower lower h → Using lower order h = .ok h) ∧
    (∀ (h : Header) (order1 order2 : List String), AllLower lower h → Covers order1 h →
      ∃ r, From lower order1 order2 h = .ok r ∧ (∀ k, r.index k = h.index k) ∧
        (h ≠ .nil → r = h)) ∧
    ((∀ s, lower (lower s) = lower s) →
      ∀ (m : Header) (order1 order2 order3 order4 : List String), CollisionFree lower m →
        Covers order1 m → Covers order2 m →
        ∃ r, From lower order1 order2 m = .ok r ∧
          (Covers order3 r → From lower order3 order4 r = .ok r)) ∧
    ((∀ s, lower (lower s) = lower s) →
      ∀ (m : Header) (order1 order2 : List String), CollisionFree lower m →
        Covers order1 m →
        ∃ r, Using lower order1 m = .ok r ∧ Using lower order2 r = .ok r) := by
  have hfrom : ∀ (h : Header) (order1 order2 : List String), AllLower lower h →
      Covers order1 h →
      ∃ r, From lower order1 order2 h = .ok r ∧ (∀ k, r.index k = h.index k) ∧
        (h ≠ .nil → r = h) := by
    intro h order1 order2 hlow hcov
    obtain ⟨e, he, hkeys, hidx⟩ := From_eq lower order1 order2 h hcov
    have hlow' : AllLower lower (.mk e) := by
      intro k hk; rw [hkeys] at hk; exact hlow k hk
    refine ⟨.mk e, he.trans (makeLowercase_of_lower lower order2 _ hlow'), hidx, ?_⟩
    intro hne
    cases h with
    | nil => exact absurd rfl hne
    | mk e0 =>
      congr 1
      apply Finmap.ext_lookup
      intro x
      exact hidx x
  refine ⟨fun h order hlow => makeLowercase_of_lower lower order h hlow, hfrom, ?_, ?_⟩
  · intro hidem m order1 order2 order3 order4 hfree h1 h2
    obtain ⟨e, he, hkeys, _⟩ := From_eq lower order1 order2 m h1
    have hcov : Covers order2 (.mk e) := by
      intro k hk; rw [hkeys] at hk; exact h2 k hk
    have hfree' : CollisionFree lower (.mk e) := by
      intro k1 hk1 k2 hk2; rw [hkeys] at hk1 hk2; exact hfree k1 hk1 k2 hk2
    obtain ⟨r, hr, hnil, _, _⟩ := makeLowercase_returns lower hidem hcov hfree'
    have hlow := makeLowercase_AllLower lower hidem hcov hr
    refine ⟨r, he.trans hr, ?_⟩
    intro hcov3
    obtain ⟨r', hr', _, hsame⟩ := hfrom r order3 order4 hlow hcov3
    have hne : r ≠ .nil := fun h => by simp [hnil] at h
    rw [hr', hsame hne]
  · intro hidem m order1 order2 hfree h1
    obtain ⟨r, hr, _, _, _⟩ := makeLowercase_returns lower hidem h1 hfree
    have hlow := makeLowercase_AllLower lower hidem h1 hr
    exact ⟨r, hr, makeLowercase_of_lower lower order2 r hlow⟩

/-- Witness of C17: normalising the normalised header of the tests, and
normalising the source map of the tests twice. -/
theorem normalisation_idempotent_witness :
    Using toLowerLatin1 ["nonsense", "content-type"] lowerHeader = .ok lowerHeader ∧
      (∃ r, From toLowerLatin1 ["nonsense", "content-type"] ["content-type"] lowerHeader =
        .ok r ∧ (∀ k, r.index k = lowerHeader.index k) ∧ (lowerHeader ≠ .nil → r = lowerHeader)) ∧
      (∃ r, Using toLowerLatin1 ["Content-Type", "Content-Length"] sampleHeader = .ok r ∧
        Using toLowerLatin1 ["content-length"] r = .ok r) :=
  have hall := normalisation_idempotent toLowerLatin1
  ⟨hall.1 lowerHeader _ (by decide),
    hall.2.1 lowerHeader _ _ (by decide) (by decide),
    hall.2.2.2 toLowerLatin1_idem sampleHeader _ _ (by decide) (by decide)⟩

/-! ## The collision abort -/

/-- What an aborting iteration of `makeLowercase` leaves: the key is not
lower-case, its lower-case form is present among the other keys, the message
names that form and the key, and the key has been deleted. -/
theorem makeLowercaseBody_abort (lower : String → String) {e : Entries} {old : String}
    {v : Slice} {a : Abort} (h : makeLowercaseBody lower e old v = .error a) :
    lower old ≠ old ∧ lower old ∈ e.erase old ∧
      a = ⟨collisionMessage (lower old) old, .mk (e.erase old)⟩ := by
  obtain ⟨h1, h2⟩ := makeLowercaseBody_error lower h
  refine ⟨h1, h2, ?_⟩
  unfold makeLowercaseBody at h
  simp only [h1, if_false, h2, if_true] at h
  injection h with h
  rw [← h]
  rfl

/-- The original map is where its own entries come from. -/
theorem Renamed_refl (lower : String → String) (m : Entries) : Renamed lower m m :=
  fun k v hk => ⟨k, hk, Or.inl rfl⟩

/-- A completed iteration keeps the record of where the entries come from. -/
theorem makeLowercaseBody_Renamed (lower : String → String)
    (hidem : ∀ s, lower (lower s) = lower s) {m e e' : Entries} {old : String} {v : Slice}
    (hren : Renamed lower m e) (hold : e.lookup old = some v)
    (h : makeLowercaseBody lower e old v = .ok e') : Renamed lower m e' := by
  rcases makeLowercaseBody_ok lower h with ⟨_, rfl⟩ | ⟨h1, _, rfl⟩
  · exact hren
  · intro k w hk
    rw [lookup_insert_erase] at hk
    by_cases hb : k = lower old
    · rw [if_pos hb] at hk
      injection hk with hk
      subst hk
      obtain ⟨k0, hk0, hcase⟩ := hren old v hold
      have hk0old : old = k0 := by
        rcases hcase with hc | ⟨hc, _, _⟩
        · exact hc
        · exact absurd (by rw [hc, hidem]) h1
      subst hk0old
      refine ⟨old, hk0, Or.inr ⟨hb, h1, ?_⟩⟩
      rw [Finmap.mem_insert, Finmap.mem_erase]
      rintro (hc | ⟨hc, _⟩)
      · exact h1 hc.symm
      · exact hc rfl
    · rw [if_neg hb] at hk
      by_cases ha : k = old
      · rw [if_pos ha] at hk; cases hk
      · rw [if_neg ha] at hk
        obtain ⟨k0, hk0, hcase⟩ := hren k w hk
        refine ⟨k0, hk0, ?_⟩
        rcases hcase with hc | ⟨hc, hne, hnot⟩
        · exact Or.inl hc
        · refine Or.inr ⟨hc, hne, ?_⟩
          rw [Finmap.mem_insert, Finmap.mem_erase]
          rintro (hc2 | ⟨_, hc2⟩)
          · exact hne (by rw [hc2, hidem])
          · exact hnot hc2

/-- When the loop of `makeLowercase` aborts, it does so in an iteration on a
present key, from a state that still records where its entries come from. -/
theorem makeLowercaseLoop_abort (lower : String → String)
    (hidem : ∀ s, lower (lower s) = lower s) (m : Entries) (order : List String) :
    ∀ (e : Entries) (a : Abort), Renamed lower m e →
      makeLowercaseLoop lower order e = .error a →
      ∃ (h : Entries) (old : String) (v : Slice), Renamed lower m h ∧
        h.lookup old = some v ∧ lower old ≠ old ∧ lower old ∈ h.erase old ∧
        a = ⟨collisionMessage (lower old) old, .mk (h.erase old)⟩ := by
  induction order with
  | nil => intro e a _ h; simp [makeLowercaseLoop] at h
  | cons x xs ih =>
    intro e a hren h
    unfold makeLowercaseLoop at h
    cases hx : e.lookup x with
    | none =>
      simp only [hx] at h
      exact ih e a hren h
    | some v =>
      simp only [hx] at h
      cases hb : makeLowercaseBody lower e x v with
      | error a' =>
        simp only [hb] at h
        injection h with h
        subst h
        obtain ⟨h1, h2, h3⟩ := makeLowercaseBody_abort lower hb
        exact ⟨e, x, v, hren, hx, h1, h2, h3⟩
      | ok e1 =>
        simp only [hb] at h
        exact ih e1 a (makeLowercaseBody_Renamed lower hidem hren hx hb) h

/-- The state in which `makeLowercase` aborts, read against the original map:
the key being renamed is a key of the original map and is not lower-case;
another key of the original map has the same lower-case form; the message names
that form and the key being renamed; and the map left behind lacks the key
being renamed, each of its entries holding the slice of another original key. -/
theorem makeLowercase_abort (lower : String → String)
    (hidem : ∀ s, lower (lower s) = lower s) {order : List String} {m : Header} {a : Abort}
    (h : makeLowercase lower order m = .error a) :
    ∃ oldKey other : String, oldKey ∈ m.keys ∧ other ∈ m.keys ∧ other ≠ oldKey ∧
      lower other = lower oldKey ∧ lower oldKey ≠ oldKey ∧
      a.message = collisionMessage (lower oldKey) oldKey ∧
      oldKey ∉ a.header.keys ∧
      (∀ k v, a.header.index k = some v →
        ∃ k0, k0 ≠ oldKey ∧ m.index k0 = some v ∧ (k = k0 ∨ k = lower k0)) := by
  cases m with
  | nil => simp [makeLowercase] at h
  | mk e =>
    unfold makeLowercase at h
    cases hl : makeLowercaseLoop lower order e with
    | ok e' => simp [hl] at h
    | error a' =>
      simp only [hl] at h
      injection h with h
      subst h
      obtain ⟨st, old, v, hren, hold, hne, hin, rfl⟩ :=
        makeLowercaseLoop_abort lower hidem e order e a' (Renamed_refl lower e) hl
      have holdin : old ∈ st := Finmap.mem_of_lookup_eq_some hold
      -- the key being renamed is an original key
      obtain ⟨k0, hk0, hcase⟩ := hren old v hold
      have hk0old : old = k0 := by
        rcases hcase with hc | ⟨hc, _, _⟩
        · exact hc
        · exact absurd (by rw [hc, hidem]) hne
      subst hk0old
      -- the entry found under the lower-case form comes from another original key
      rw [Finmap.mem_erase] at hin
      obtain ⟨w, hw⟩ := Finmap.mem_iff.1 hin.2
      obtain ⟨k1, hk1, hcase1⟩ := hren (lower old) w hw
      have hk1ne : k1 ≠ old := by
        rcases hcase1 with hc | ⟨_, _, hnot⟩
        · rw [← hc]; exact hne
        · intro hc; rw [hc] at hnot; exact hnot holdin
      have hk1low : lower k1 = lower old := by
        rcases hcase1 with hc | ⟨hc, _, _⟩
        · rw [← hc, hidem]
        · exact hc.symm
      refine ⟨old, k1, mem_keys_mk.2 (Finmap.mem_of_lookup_eq_some hk0),
        mem_keys_mk.2 (Finmap.mem_of_lookup_eq_some hk1), hk1ne, hk1low, hne, rfl, ?_, ?_⟩
      · rw [mem_keys_mk]
        exact Finmap.not_mem_erase_self
      · intro k u hk
        simp only [Header.index] at hk
        have hkne : k ≠ old := by
          intro hc
          rw [hc, Finmap.lookup_erase] at hk
          cases hk
        rw [Finmap.lookup_erase_ne hkne] at hk
        obtain ⟨k2, hk2, hcase2⟩ := hren k u hk
        refine ⟨k2, ?_, hk2, ?_⟩
        · rcases hcase2 with hc | ⟨_, _, hnot⟩
          · rw [← hc]; exact hkne
          · intro hc; rw [hc] at hnot; exact hnot holdin
        · rcases hcase2 with hc | ⟨hc, _, _⟩
          · exact Or.inl hc
          · exact Or.inr hc

/-! ## Maps in memory: reading a map object as entries -/

/-- Looking a key up in the entries a map object denotes. -/
theorem lookup_viewObj (arrays : Arrays) (obj : MapObj) (k : String) :
    (viewObj arrays obj).lookup k = (obj.lookup k).map (sliceOf arrays) := by
  rcases obj with ⟨⟨l⟩, hl⟩
  exact @List.dlookup_map₂ String _ (fun _ => SliceRef) (fun _ => Slice) l
    (fun _ x => sliceOf arrays x) k

/-- A map object and the entries it denotes have the same keys. -/
theorem mem_viewObj (arrays : Arrays) (obj : MapObj) (k : String) :
    k ∈ viewObj arrays obj ↔ k ∈ obj := by
  rw [← Finmap.lookup_isSome, ← Finmap.lookup_isSome, lookup_viewObj]
  cases obj.lookup k <;> simp

/-- Reading commutes with the deletion of a key. -/
theorem viewObj_erase (arrays : Arrays) (obj : MapObj) (k : String) :
    viewObj arrays (obj.erase k) = (viewObj arrays obj).erase k := by
  apply Finmap.ext_lookup
  intro x
  rw [lookup_viewObj]
  by_cases hx : x = k
  · subst hx; simp [Finmap.lookup_erase]
  · rw [Finmap.lookup_erase_ne hx, Finmap.lookup_erase_ne hx, lookup_viewObj]

/-- Reading commutes with the assignment to a key. -/
theorem viewObj_insert (arrays : Arrays) (obj : MapObj) (k : String) (v : SliceRef) :
    viewObj arrays (obj.insert k v) = (viewObj arrays obj).insert k (sliceOf arrays v) := by
  apply Finmap.ext_lookup
  intro x
  rw [lookup_viewObj]
  by_cases hx : x = k
  · subst hx; simp [Finmap.lookup_insert]
  · rw [Finmap.lookup_insert_of_ne _ hx, Finmap.lookup_insert_of_ne _ hx, lookup_viewObj]

/-- The empty map object denotes no entries. -/
theorem viewObj_empty (arrays : Arrays) : viewObj arrays ∅ = ∅ := by
  apply Finmap.ext_lookup
  intro x
  rw [lookup_viewObj]
  simp [Finmap.lookup_empty]

/-- Two memories in which the slice values of a map object denote the same
slices read the map object alike. -/
theorem viewObj_congr (arrays1 arrays2 : Arrays) (obj : MapObj)
    (h : ∀ k v, obj.lookup k = some v → sliceOf arrays1 v = sliceOf arrays2 v) :
    viewObj arrays1 obj = viewObj arrays2 obj := by
  apply Finmap.ext_lookup
  intro x
  rw [lookup_viewObj, lookup_viewObj]
  cases hx : obj.lookup x with
  | none => rfl
  | some v => simp [h x v hx]

/-- An iteration on a map object that completes is an iteration of
`makeLowercaseBody` on the entries the object denotes. -/
theorem Mem_makeLowercaseBody_ok (lower : String → String) (arrays : Arrays)
    {obj obj' : MapObj} {old : String} {v : SliceRef}
    (h : Mem.makeLowercaseBody lower obj old v = .ok obj') :
    makeLowercaseBody lower (viewObj arrays obj) old (sliceOf arrays v) =
      .ok (viewObj arrays obj') := by
  unfold Mem.makeLowercaseBody at h
  unfold makeLowercaseBody
  by_cases h1 : lower old = old
  · simp only [h1, if_true] at h ⊢
    injection h with h
    rw [h]
  · simp only [h1, if_false] at h ⊢
    by_cases h2 : lower old ∈ obj.erase old
    · simp [h2] at h
    · simp only [h2, if_false] at h
      injection h with h
      have h2' : lower old ∉ (viewObj arrays obj).erase old := by
        rw [← viewObj_erase, mem_viewObj]; exact h2
      simp only [h2', if_false]
      rw [← h, viewObj_insert, viewObj_erase]

/-- An iteration on a map object that aborts is an aborting iteration of
`makeLowercaseBody` on the entries the object denotes. -/
theorem Mem_makeLowercaseBody_error (lower : String → String) (arrays : Arrays)
    {obj obj' : MapObj} {old message : String} {v : SliceRef}
    (h : Mem.makeLowercaseBody lower obj old v = .error (message, obj')) :
    makeLowercaseBody lower (viewObj arrays obj) old (sliceOf arrays v) =
      .error ⟨message, .mk (viewObj arrays obj')⟩ := by
  unfold Mem.makeLowercaseBody at h
  unfold makeLowercaseBody
  by_cases h1 : lower old = old
  · simp [h1] at h
  · simp only [h1, if_false] at h ⊢
    by_cases h2 : lower old ∈ obj.erase old
    · simp only [h2, if_true] at h
      injection h with h
      injection h with hm ho
      have h2' : lower old ∈ (viewObj arrays obj).erase old := by
        rw [← viewObj_erase, mem_viewObj]; exact h2
      simp only [h2', if_true]
      rw [← hm, ← ho, viewObj_erase]
      rfl
    · simp [h2] at h

/-- The loop on a map object is the loop of `makeLowercase` on the entries the
object denotes: both complete, or both abort with the same message. -/
theorem Mem_makeLowercaseLoop_sim (lower : String → String) (arrays : Arrays)
    (order : List String) :
    ∀ obj : MapObj,
      (∀ obj', Mem.makeLowercaseLoop lower order obj = .ok obj' →
        makeLowercaseLoop lower order (viewObj arrays obj) = .ok (viewObj arrays obj')) ∧
      (∀ message obj', Mem.makeLowercaseLoop lower order obj = .error (message, obj') →
        makeLowercaseLoop lower order (viewObj arrays obj) =
          .error ⟨message, .mk (viewObj arrays obj')⟩) := by
  induction order with
  | nil =>
    intro obj
    constructor
    · intro obj' h
      simp only [Mem.makeLowercaseLoop] at h
      injection h with h
      rw [h]; rfl
    · intro message obj' h
      simp [Mem.makeLowercaseLoop] at h
  | cons x xs ih =>
    intro obj
    have hstep : ∀ r, Mem.makeLowercaseLoop lower (x :: xs) obj = r →
        (match obj.lookup x with
          | none => Mem.makeLowercaseLoop lower xs obj
          | some values =>
            match Mem.makeLowercaseBody lower obj x values with
            | .error a => .error a
            | .ok header => Mem.makeLowercaseLoop lower xs header) = r := by
      intro r hr
      rw [← hr]
      rfl
    constructor
    · intro obj' h
      have h := hstep _ h
      unfold makeLowercaseLoop
      rw [lookup_viewObj]
      cases hx : obj.lookup x with
      | none =>
        simp only [hx, Option.map_none'] at h ⊢
        exact (ih obj).1 obj' h
      | some v =>
        simp only [hx, Option.map_some'] at h ⊢
        cases hb : Mem.makeLowercaseBody lower obj x v with
        | error a => simp [hb] at h
        | ok obj1 =>
          simp only [hb] at h
          rw [Mem_makeLowercaseBody_ok lower arrays hb]
          exact (ih obj1).1 obj' h
    · intro message obj' h
      have h := hstep _ h
      unfold makeLowercaseLoop
      rw [lookup_viewObj]
      cases hx : obj.lookup x with
      | none =>
        simp only [hx, Option.map_none'] at h ⊢
        exact (ih obj).2 message obj' h
      | some v =>
        simp only [hx, Option.map_some'] at h ⊢
        cases hb : Mem.makeLowercaseBody lower obj x v with
        | error a =>
          simp only [hb] at h
          injection h with h
          subst h
          rw [Mem_makeLowercaseBody_error lower arrays hb]
        | ok obj1 =>
          simp only [hb] at h
          rw [Mem_makeLowercaseBody_ok lower arrays hb]
          exact (ih obj1).2 message obj' h

/-! ## Maps in memory: the memory after a call -/

theorem getD_set_self {α : Type} (l : List α) (a : Nat) (x d : α) (h : a < l.length) :
    (l.set a x).getD a d = x := by
  simp [List.getD_eq_getElem?_getD, h]

theorem getD_set_other {α : Type} (l : List α) (a b : Nat) (x d : α) (h : b ≠ a) :
    (l.set a x).getD b d = l.getD b d := by
  simp [List.getD_eq_getElem?_getD, List.getElem?_set_ne (Ne.symm h)]

theorem getD_append_length {α : Type} (l : List α) (x d : α) :
    (l ++ [x]).getD l.length d = x := by
  simp [List.getD_eq_getElem?_getD]

theorem getD_append_left {α : Type} (l ext : List α) (b : Nat) (d : α) (h : b < l.length) :
    (l ++ ext).getD b d = l.getD b d := by
  simp [List.getD_eq_getElem?_getD, List.getElem?_append_left h]

/-- A slice value that is nil or points to an allocated array denotes the same
slice after further arrays are allocated. -/
theorem sliceOf_append (arrays ext : Arrays) (v : SliceRef)
    (hv : ∀ a off len cap, v = .mk a off len cap → a < arrays.length) :
    sliceOf (arrays ++ ext) v = sliceOf arrays v := by
  cases v with
  | nil => rfl
  | mk a off len cap =>
    simp only [sliceOf, readSlice, getD_append_left arrays ext a [] (hv a off len cap rfl)]

/-- The slice values in the map object an iteration leaves behind are slice
values of the map object it started from, or the value it was given. -/
theorem Mem_makeLowercaseBody_values (lower : String → String)
    (obj : MapObj) (old : String) (v : SliceRef) :
    (∀ obj', Mem.makeLowercaseBody lower obj old v = .ok obj' →
      ∀ k s, obj'.lookup k = some s → s = v ∨ ∃ k0, obj.lookup k0 = some s) ∧
    (∀ message obj', Mem.makeLowercaseBody lower obj old v = .error (message, obj') →
      ∀ k s, obj'.lookup k = some s → ∃ k0, obj.lookup k0 = some s) := by
  unfold Mem.makeLowercaseBody
  by_cases h1 : lower old = old
  · simp only [h1, if_true]
    refine ⟨?_, ?_⟩
    · intro obj' h k s hk
      injection h with h
      subst h
      exact Or.inr ⟨k, hk⟩
    · intro message obj' h
      cases h
  · simp only [h1, if_false]
    by_cases h2 : lower old ∈ obj.erase old
    · simp only [h2, if_true]
      refine ⟨?_, ?_⟩
      · intro obj' h
        cases h
      · intro message obj' h k s hk
        injection h with h
        injection h with _ ho
        subst ho
        by_cases hko : k = old
        · rw [hko, Finmap.lookup_erase] at hk; cases hk
        · rw [Finmap.lookup_erase_ne hko] at hk
          exact ⟨k, hk⟩
    · simp only [h2, if_false]
      refine ⟨?_, ?_⟩
      · intro obj' h k s hk
        injection h with h
        subst h
        by_cases hkl : k = lower old
        · rw [hkl, Finmap.lookup_insert] at hk
          injection hk with hk
          exact Or.inl hk.symm
        · rw [Finmap.lookup_insert_of_ne _ hkl] at hk
          by_cases hko : k = old
          · rw [hko, Finmap.lookup_erase] at hk; cases hk
          · rw [Finmap.lookup_erase_ne hko] at hk
            exact Or.inr ⟨k, hk⟩
      · intro message obj' h
        cases h

/-- The loop on a map object moves slice values around: every slice value in
the map object it leaves behind, on completion or on abort, is a slice value of
the map object it started from. -/
theorem Mem_makeLowercaseLoop_values (lower : String → String) (order : List String) :
    ∀ obj : MapObj,
      (∀ obj', Mem.makeLowercaseLoop lower order obj = .ok obj' →
        ∀ k s, obj'.lookup k = some s → ∃ k0, obj.lookup k0 = some s) ∧
      (∀ message obj', Mem.makeLowercaseLoop lower order obj = .error (message, obj') →
        ∀ k s, obj'.lookup k = some s → ∃ k0, obj.lookup k0 = some s) := by
  induction order with
  | nil =>
    intro obj
    constructor
    · intro obj' h k s hk
      simp only [Mem.makeLowercaseLoop] at h
      injection h with h
      subst h
      exact ⟨k, hk⟩
    · intro message obj' h
      simp [Mem.makeLowercaseLoop] at h
  | cons x xs ih =>
    intro obj
    have hstep : ∀ r, Mem.makeLowercaseLoop lower (x :: xs) obj = r →
        (match obj.lookup x with
          | none => Mem.makeLowercaseLoop lower xs obj
          | some values =>
            match Mem.makeLowercaseBody lower obj x values with
            | .error a => .error a
            | .ok header => Mem.makeLowercaseLoop lower xs header) = r := by
      intro r hr
      rw [← hr]
      rfl
    have hback : ∀ (v : SliceRef) (obj1 : MapObj), obj.lookup x = some v →
        Mem.makeLowercaseBody lower obj x v = .ok obj1 →
        ∀ k s, obj1.lookup k = some s → ∃ k0, obj.lookup k0 = some s := by
      intro v obj1 hx hb k s hk
      rcases (Mem_makeLowercaseBody_values lower obj x v).1 obj1 hb k s hk with hs | hs
      · exact ⟨x, by rw [hs]; exact hx⟩
      · exact hs
    constructor
    · intro obj' h k s hk
      have h := hstep _ h
      cases hx : obj.lookup x with
      | none =>
        simp only [hx] at h
        exact (ih obj).1 obj' h k s hk
      | some v =>
        simp only [hx] at h
        cases hb : Mem.makeLowercaseBody lower obj x v with
        | error a => simp [hb] at h
        | ok obj1 =>
          simp only [hb] at h
          obtain ⟨k1, hk1⟩ := (ih obj1).1 obj' h k s hk
          exact hback v obj1 hx hb k1 s hk1
    · intro message obj' h k s hk
      have h := hstep _ h
      cases hx : obj.lookup x with
      | none =>
        simp only [hx] at h
        exact (ih obj).2 message obj' h k s hk
      | some v =>
        simp only [hx] at h
        cases hb : Mem.makeLowercaseBody lower obj x v with
        | error a =>
          simp only [hb] at h
          injection h with h
          subst h
          exact (Mem_makeLowercaseBody_values lower obj x v).2 message obj' hb k s hk
        | ok obj1 =>
          simp only [hb] at h
          obtain ⟨k1, hk1⟩ := (ih obj1).2 message obj' h k s hk
          exact hback v obj1 hx hb k1 s hk1

/-- When `makeLowercase` returns on a map of the memory: it returns the map
value it was given; no array and no other map object has changed; the contents
of the map are those `makeLowercase` gives on its former contents; and the
slice values the map holds are slice values it held before. -/
theorem Mem_makeLowercase_ok (lower : String → String) {order : List String} {mem mem' : Memory}
    {a : Nat} {r : MapRef} (ha : a < mem.maps.length)
    (h : Mem.makeLowercase lower order mem (.addr a) = .ok (mem', r)) :
    r = .addr a ∧ mem'.arrays = mem.arrays ∧ mem'.maps.length = mem.maps.length ∧
      (∀ b, b ≠ a → mem'.maps.getD b ∅ = mem.maps.getD b ∅) ∧
      makeLowercase lower order (mem.headerAt (.addr a)) = .ok (mem'.headerAt (.addr a)) ∧
      (∀ k s, mem'.indexAt (.addr a) k = some s → ∃ k0, mem.indexAt (.addr a) k0 = some s) := by
  unfold Mem.makeLowercase at h
  cases hl : Mem.makeLowercaseLoop lower order (mem.maps.getD a ∅) with
  | error e =>
    simp only [hl] at h
    cases h
  | ok obj =>
    simp only [hl] at h
    injection h with h
    injection h with hm hr
    subst hm
    have hget : (mem.maps.set a obj).getD a ∅ = obj := getD_set_self _ _ _ _ ha
    refine ⟨hr.symm, rfl, by simp, fun b hb => getD_set_other _ _ _ _ _ hb, ?_, ?_⟩
    · simp only [Memory.headerAt, makeLowercase, hget]
      rw [(Mem_makeLowercaseLoop_sim lower mem.arrays order _).1 obj hl]
    · intro k s hk
      simp only [Memory.indexAt, Memory.objAt, hget] at hk ⊢
      exact (Mem_makeLowercaseLoop_values lower order _).1 obj hl k s hk

/-- When `makeLowercase` aborts on a map of the memory: no array and no other
map object has changed, and the contents of the map at the abort are those
`makeLowercase` reports for its former contents, with the same message. -/
theorem Mem_makeLowercase_error (lower : String → String) {order : List String} {mem : Memory}
    {a : Nat} {ab : MemAbort} (ha : a < mem.maps.length)
    (h : Mem.makeLowercase lower order mem (.addr a) = .error ab) :
    ab.memory.arrays = mem.arrays ∧ ab.memory.maps.length = mem.maps.length ∧
      (∀ b, b ≠ a → ab.memory.maps.getD b ∅ = mem.maps.getD b ∅) ∧
      makeLowercase lower order (mem.headerAt (.addr a)) =
        .error ⟨ab.message, ab.memory.headerAt (.addr a)⟩ := by
  unfold Mem.makeLowercase at h
  cases hl : Mem.makeLowercaseLoop lower order (mem.maps.getD a ∅) with
  | ok obj =>
    simp only [hl] at h
    cases h
  | error e =>
    obtain ⟨message, obj⟩ := e
    simp only [hl] at h
    injection h with h
    subst h
    have hget : (mem.maps.set a obj).getD a ∅ = obj := getD_set_self _ _ _ _ ha
    refine ⟨rfl, by simp, fun b hb => getD_set_other _ _ _ _ _ hb, ?_⟩
    simp only [Memory.headerAt, makeLowercase, hget]
    rw [(Mem_makeLowercaseLoop_sim lower mem.arrays order _).2 message obj hl]

/-! ## The collision abort: message and state -/

/-- A message made by `collisionMessage` contains both of its arguments. -/
theorem collisionMessage_Mentions (newKey oldKey : String) :
    Mentions (collisionMessage newKey oldKey) newKey ∧
      Mentions (collisionMessage newKey oldKey) oldKey := by
  unfold Mentions collisionMessage
  simp only [String.data_append]
  constructor
  · exact ⟨_, _, by simp only [List.append_assoc]; rfl⟩
  · exact ⟨_, _, rfl⟩

set_option maxRecDepth 100000 in
/-- C13 as stated fails on a map with exactly the keys `Ab` and `aB`: whatever
key is visited first, the message names the lower-case form `ab` and the key
visited second; the original spelling of the key visited first is not in it. -/
theorem abort_message_counterexample :
    Using toLowerLatin1 ["Ab", "aB"] abHeader =
        .error ⟨collisionMessage "ab" "aB", .mk (Finmap.insert "ab" (.mk ["1"]) ∅)⟩ ∧
      From toLowerLatin1 ["Ab", "aB"] ["Ab", "aB"] abHeader =
        .error ⟨collisionMessage "ab" "aB", .mk (Finmap.insert "ab" (.mk ["1"]) ∅)⟩ ∧
      ¬ Mentions (collisionMessage "ab" "aB") "Ab" ∧
      Using toLowerLatin1 ["aB", "Ab"] abHeader =
        .error ⟨collisionMessage "ab" "Ab", .mk (Finmap.insert "ab" (.mk ["2"]) ∅)⟩ ∧
      ¬ Mentions (collisionMessage "ab" "Ab") "aB" := by
  refine ⟨by decide, by decide, by decide, by decide, by decide⟩

/-- C13, as amended: for an idempotent key transformation, whenever `From`
(under a covering schedule for its copying loop) or `Using` aborts, the key
being renamed at that moment is a key of the source map that is not
lower-case, another key of the source map has the same lower-case form, and
the message is the format string filled with that lower-case form and the key
being renamed, as spelled in the source map; the message contains both. -/
theorem abort_message (lower : String → String) (hidem : ∀ s, lower (lower s) = lower s)
    (m : Header) (order1 order2 order : List String) (a : Abort) (h1 : Covers order1 m)
    (habort : From lower order1 order2 m = .error a ∨ Using lower order m = .error a) :
    ∃ oldKey other : String, oldKey ∈ m.keys ∧ other ∈ m.keys ∧ other ≠ oldKey ∧
      lower other = lower oldKey ∧ lower oldKey ≠ oldKey ∧
      a.message = collisionMessage (lower oldKey) oldKey ∧
      Mentions a.message (lower oldKey) ∧ Mentions a.message oldKey := by
  have hmain : ∀ (m' : Header) (order' : List String), m'.keys = m.keys →
      makeLowercase lower order' m' = .error a →
      ∃ oldKey other : String, oldKey ∈ m.keys ∧ other ∈ m.keys ∧ other ≠ oldKey ∧
        lower other = lower oldKey ∧ lower oldKey ≠ oldKey ∧
        a.message = collisionMessage (lower oldKey) oldKey ∧
        Mentions a.message (lower oldKey) ∧ Mentions a.message oldKey := by
    intro m' order' hkeys h
    obtain ⟨oldKey, other, ho, hot, hne, hlow, hnl, hmsg, _, _⟩ :=
      makeLowercase_abort lower hidem h
    rw [hkeys] at ho hot
    refine ⟨oldKey, other, ho, hot, hne, hlow, hnl, hmsg, ?_, ?_⟩
    · rw [hmsg]; exact (collisionMessage_Mentions _ _).1
    · rw [hmsg]; exact (collisionMessage_Mentions _ _).2
  rcases habort with h | h
  · obtain ⟨e, hfrom, hkeys, _⟩ := From_eq lower order1 order2 m h1
    exact hmain (.mk e) order2 hkeys (hfrom ▸ h)
  · exact hmain m order rfl h

/-- Witness of C13, as amended: the map of the panic tests. -/
theorem abort_message_witness :
    ∃ oldKey other : String, oldKey ∈ collidingHeader.keys ∧ other ∈ collidingHeader.keys ∧
      other ≠ oldKey ∧ toLowerLatin1 other = toLowerLatin1 oldKey ∧
      toLowerLatin1 oldKey ≠ oldKey ∧
      collisionMessage "content-type" "cOnTenT-tYpE" =
        collisionMessage (toLowerLatin1 oldKey) oldKey ∧
      Mentions (collisionMessage "content-type" "cOnTenT-tYpE") (toLowerLatin1 oldKey) ∧
      Mentions (collisionMessage "content-type" "cOnTenT-tYpE") oldKey :=
  abort_message toLowerLatin1 toLowerLatin1_idem collidingHeader
    ["Content-Type", "cOnTenT-tYpE"] [] ["Content-Type", "cOnTenT-tYpE"]
    ⟨collisionMessage "content-type" "cOnTenT-tYpE",
      .mk (Finmap.insert "content-type" (.mk ["foo"]) ∅)⟩
    (by decide) (Or.inr (by decide))

/-- After `m[k] = v` the map holds `v` under `k`, and its other entries are as
before. -/
theorem indexAt_assignAt (mem : Memory) (a : Nat) (k : String) (v : SliceRef)
    (ha : a < mem.maps.length) :
    ∃ mem2, mem.assignAt (.addr a) k v = .ok mem2 ∧ mem2.indexAt (.addr a) k = some v ∧
      (∀ x, x ≠ k → mem2.indexAt (.addr a) x = mem.indexAt (.addr a) x) ∧
      mem2.arrays = mem.arrays ∧ mem2.maps.length = mem.maps.length ∧
      (∀ b, b ≠ a → mem2.maps.getD b ∅ = mem.maps.getD b ∅) := by
  refine ⟨_, rfl, ?_, ?_, rfl, by simp, fun b hb => getD_set_other _ _ _ _ _ hb⟩
  · simp only [Memory.indexAt, Memory.objAt, getD_set_self _ _ _ _ ha, Finmap.lookup_insert]
  · intro x hx
    simp only [Memory.indexAt, Memory.objAt, getD_set_self _ _ _ _ ha]
    exact Finmap.lookup_insert_of_ne _ hx

/-- After `delete(m, k)` the map has no entry under `k`, and its other entries
are as before. -/
theorem indexAt_deleteAt (mem : Memory) (a : Nat) (k : String) (ha : a < mem.maps.length) :
    (mem.deleteAt (.addr a) k).indexAt (.addr a) k = none ∧
      (∀ x, x ≠ k → (mem.deleteAt (.addr a) k).indexAt (.addr a) x = mem.indexAt (.addr a) x) ∧
      (mem.deleteAt (.addr a) k).arrays = mem.arrays ∧
      (mem.deleteAt (.addr a) k).maps.length = mem.maps.length ∧
      (∀ b, b ≠ a → (mem.deleteAt (.addr a) k).maps.getD b ∅ = mem.maps.getD b ∅) := by
  refine ⟨?_, ?_, rfl, by simp [Memory.deleteAt], fun b hb => getD_set_other _ _ _ _ _ hb⟩
  · simp only [Memory.deleteAt, Memory.indexAt, Memory.objAt, getD_set_self _ _ _ _ ha,
      Finmap.lookup_erase]
  · intro x hx
    simp only [Memory.deleteAt, Memory.indexAt, Memory.objAt, getD_set_self _ _ _ _ ha]
    exact Finmap.lookup_erase_ne hx

/-- The slice `From` stores for a non-nil value denotes, in the memory with the
newly allocated array, the elements of the value. -/
theorem sliceOf_fresh (arrays : Arrays) (x off len cap : Nat) :
    sliceOf (arrays ++ [readSlice arrays (.mk x off len cap)]) (.mk arrays.length 0 len len) =
      .mk (readSlice arrays (.mk x off len cap)) := by
  simp only [sliceOf, readSlice, getD_append_length, List.drop_zero, List.take_take, min_self]

/-- The copying loop of `From` in memory: it only allocates arrays; the slice
values it stores point to allocated arrays, and to arrays allocated from
`base` on when those it started with did; and the entries it builds are those
the loop `fromLoop` builds from the entries the source denotes. -/
theorem Mem_fromLoop_spec (hdr : MapObj) (arrays0 : Arrays)
    (hwf : ∀ k x off len cap, hdr.lookup k = some (.mk x off len cap) → x < arrays0.length)
    (order : List String) :
    ∀ (ext : Arrays) (acc : MapObj),
      (∀ k x off len cap, acc.lookup k = some (.mk x off len cap) →
        x < (arrays0 ++ ext).length) →
      (∃ ext', (Mem.fromLoop hdr order (arrays0 ++ ext, acc)).1 = arrays0 ++ ext') ∧
      (∀ base, (∀ k x off len cap, acc.lookup k = some (.mk x off len cap) → base ≤ x) →
        base ≤ (arrays0 ++ ext).length →
        ∀ k x off len cap, (Mem.fromLoop hdr order (arrays0 ++ ext, acc)).2.lookup k =
          some (.mk x off len cap) → base ≤ x) ∧
      viewObj (Mem.fromLoop hdr order (arrays0 ++ ext, acc)).1
          (Mem.fromLoop hdr order (arrays0 ++ ext, acc)).2 =
        fromLoop (viewObj arrays0 hdr) order (viewObj (arrays0 ++ ext) acc) := by
  induction order with
  | nil =>
    intro ext acc _
    exact ⟨⟨ext, rfl⟩, fun base hb _ => hb, rfl⟩
  | cons key rest ih =>
    intro ext acc hacc
    have hstep : Mem.fromLoop hdr (key :: rest) (arrays0 ++ ext, acc) =
        (match hdr.lookup key with
          | none => Mem.fromLoop hdr rest (arrays0 ++ ext, acc)
          | some values =>
            if values = .nil then
              Mem.fromLoop hdr rest (arrays0 ++ ext, acc.insert key .nil)
            else
              Mem.fromLoop hdr rest ((arrays0 ++ ext) ++ [readSlice (arrays0 ++ ext) values],
                acc.insert key (.mk (arrays0 ++ ext).length 0 values.len values.len))) := rfl
    have vstep : fromLoop (viewObj arrays0 hdr) (key :: rest) (viewObj (arrays0 ++ ext) acc) =
        (match (viewObj arrays0 hdr).lookup key with
          | none => fromLoop (viewObj arrays0 hdr) rest (viewObj (arrays0 ++ ext) acc)
          | some values =>
            if values = .nil then
              fromLoop (viewObj arrays0 hdr) rest ((viewObj (arrays0 ++ ext) acc).insert key .nil)
            else
              fromLoop (viewObj arrays0 hdr) rest
                ((viewObj (arrays0 ++ ext) acc).insert key (.mk ([] ++ values.elems)))) := rfl
    rw [hstep, vstep, lookup_viewObj]
    cases hk : hdr.lookup key with
    | none =>
      simp only [Option.map_none']
      exact ih ext acc hacc
    | some v =>
      cases v with
      | nil =>
        simp only [Option.map_some', sliceOf, if_true]
        have hacc' : ∀ k x off len cap,
            (acc.insert key SliceRef.nil).lookup k = some (.mk x off len cap) →
            x < (arrays0 ++ ext).length := by
          intro k x off len cap hl
          by_cases hkk : k = key
          · rw [hkk, Finmap.lookup_insert] at hl
            cases hl
          · rw [Finmap.lookup_insert_of_ne _ hkk] at hl
            exact hacc k x off len cap hl
        obtain ⟨h1, h2, h3⟩ := ih ext (acc.insert key .nil) hacc'
        refine ⟨h1, ?_, ?_⟩
        · intro base hb hlen
          apply h2 base _ hlen
          intro k x off len cap hl
          by_cases hkk : k = key
          · rw [hkk, Finmap.lookup_insert] at hl
            cases hl
          · rw [Finmap.lookup_insert_of_ne _ hkk] at hl
            exact hb k x off len cap hl
        · rw [h3, viewObj_insert]
          rfl
      | mk x off len cap =>
        have hx : x < arrays0.length := hwf key x off len cap hk
        have hne : sliceOf arrays0 (.mk x off len cap) ≠ Slice.nil := by
          simp [sliceOf]
        have hnil : (SliceRef.mk x off len cap = SliceRef.nil) = False := by simp
        simp only [Option.map_some', hnil, hne, if_false, SliceRef.len]
        have hread : readSlice (arrays0 ++ ext) (.mk x off len cap) =
            readSlice arrays0 (.mk x off len cap) := by
          simp only [readSlice, getD_append_left arrays0 ext x [] hx]
        have hassoc : (arrays0 ++ ext) ++ [readSlice (arrays0 ++ ext) (.mk x off len cap)] =
            arrays0 ++ (ext ++ [readSlice (arrays0 ++ ext) (.mk x off len cap)]) :=
          List.append_assoc _ _ _
        have hacc' : ∀ k y o l c,
            (acc.insert key (.mk (arrays0 ++ ext).length 0 len len)).lookup k =
              some (.mk y o l c) →
            y < (arrays0 ++ (ext ++ [readSlice (arrays0 ++ ext) (.mk x off len cap)])).length := by
          intro k y o l c hl
          rw [← hassoc, List.length_append, List.length_singleton]
          by_cases hkk : k = key
          · rw [hkk, Finmap.lookup_insert] at hl
            injection hl with hl
            injection hl with hy
            omega
          · rw [Finmap.lookup_insert_of_ne _ hkk] at hl
            have := hacc k y o l c hl
            omega
        obtain ⟨h1, h2, h3⟩ := ih (ext ++ [readSlice (arrays0 ++ ext) (.mk x off len cap)])
          (acc.insert key (.mk (arrays0 ++ ext).length 0 len len)) hacc'
        rw [hassoc]
        refine ⟨h1, ?_, ?_⟩
        · intro base hb hlen
          apply h2 base
          · intro k y o l c hl
            by_cases hkk : k = key
            · rw [hkk, Finmap.lookup_insert] at hl
              injection hl with hl
              injection hl with hy
              omega
            · rw [Finmap.lookup_insert_of_ne _ hkk] at hl
              exact hb k y o l c hl
          · rw [← hassoc, List.length_append, List.length_singleton]
            omega
        · rw [h3, viewObj_insert, ← hassoc, sliceOf_fresh]
          have hview : viewObj
              ((arrays0 ++ ext) ++ [readSlice (arrays0 ++ ext) (.mk x off len cap)]) acc =
              viewObj (arrays0 ++ ext) acc := by
            apply viewObj_congr
            intro k v hv
            apply sliceOf_append
            intro y o l c hvy
            rw [hvy] at hv
            exact hacc k y o l c hv
          rw [hview, hread]
          simp [sliceOf, Slice.elems]

/-- In a map that is well-formed, every stored slice value that is not nil
points to an allocated array. -/
theorem WellFormedAt_lookup (mem : Memory) (m : MapRef) (hwell : mem.WellFormedAt m) :
    ∀ k x off len cap, mem.indexAt m k = some (.mk x off len cap) → x < mem.arrays.length := by
  intro k x off len cap hk
  have hin : k ∈ (mem.objAt m).keys := by
    rw [Finmap.mem_keys]
    exact Finmap.mem_of_lookup_eq_some hk
  have := hwell k hin
  rw [hk] at this
  exact this

/-- What `From` does before it normalises: it allocates arrays and one map
object, whose slice values all point to the newly allocated arrays, and whose
entries are those the copying loop `fromLoop` builds. -/
theorem Mem_From_eq (lower : String → String) (order1 order2 : List String) (mem : Memory)
    (a : Nat)
    (hwf : ∀ k x off len cap, mem.indexAt (.addr a) k = some (.mk x off len cap) →
      x < mem.arrays.length) :
    ∃ (ext : Arrays) (obj : MapObj),
      Mem.From lower order1 order2 mem (.addr a) =
        Mem.makeLowercase lower order2 ⟨mem.arrays ++ ext, mem.maps ++ [obj]⟩
          (.addr mem.maps.length) ∧
      (∀ k x off len cap, obj.lookup k = some (.mk x off len cap) → mem.arrays.length ≤ x) ∧
      viewObj (mem.arrays ++ ext) obj =
        fromLoop (viewObj mem.arrays (mem.maps.getD a ∅)) order1 ∅ := by
  have hspec := Mem_fromLoop_spec (mem.maps.getD a ∅) mem.arrays hwf order1 [] ∅
    (by intro k x off len cap hl; simp [Finmap.lookup_empty] at hl)
  simp only [List.append_nil] at hspec
  obtain ⟨⟨ext, hext⟩, hfresh, hview⟩ := hspec
  refine ⟨ext, (Mem.fromLoop (mem.maps.getD a ∅) order1 (mem.arrays, ∅)).2, ?_, ?_, ?_⟩
  · simp only [Mem.From, hext]
  · exact hfresh mem.arrays.length
      (by intro k x off len cap hl; simp [Finmap.lookup_empty] at hl) (le_refl _)
  · rw [← hext, hview, viewObj_empty]

/-- What `From` leaves of the memory it was given, whether it returns or
aborts: the arrays and the map objects that were there are as they were. -/
theorem Mem_From_frame (mem mem1 mem' : Memory) (ext : Arrays) (obj : MapObj) (a : Nat)
    (ha : a < mem.maps.length)
    (hwf : ∀ k x off len cap, mem.indexAt (.addr a) k = some (.mk x off len cap) →
      x < mem.arrays.length)
    (h1 : mem1 = ⟨mem.arrays ++ ext, mem.maps ++ [obj]⟩)
    (harr : mem'.arrays = mem1.arrays)
    (hmaps : ∀ b, b ≠ mem.maps.length → mem'.maps.getD b ∅ = mem1.maps.getD b ∅) :
    mem'.objAt (.addr a) = mem.objAt (.addr a) ∧
      mem'.headerAt (.addr a) = mem.headerAt (.addr a) := by
  have hobj : mem'.maps.getD a ∅ = mem.maps.getD a ∅ := by
    rw [hmaps a (Nat.ne_of_lt ha), h1]
    exact getD_append_left _ _ _ _ ha
  refine ⟨hobj, ?_⟩
  simp only [Memory.headerAt, hobj, harr, h1]
  congr 1
  apply viewObj_congr
  intro k v hv
  apply sliceOf_append
  intro x off len cap hvx
  rw [hvx] at hv
  exact hwf k x off len cap hv

/-- C11: `From` on a non-nil map of a well-formed memory leaves the source as
it was, whether it returns or aborts: the source holds the same slice values
under the same keys, with the same elements.  When it returns, the returned
header is another map object, newly allocated, whose slice values all point to
newly allocated arrays, and whose contents are those `From` gives on the
contents of the source; so the insertion or replacement of an entry of the
source, the deletion of one, and the overwriting of an element of a value
sequence of the source all leave the contents of the returned header as they
were.  On the nil map too `From` returns a newly allocated map object and
leaves the arrays and the map objects of the memory as they were. -/
theorem From_is_a_copy (lower : String → String) (order1 order2 : List String) (mem : Memory)
    (a : Nat) (ha : a < mem.maps.length) (hwell : mem.WellFormedAt (.addr a)) :
    (∀ ab, Mem.From lower order1 order2 mem (.addr a) = .error ab →
      ab.memory.objAt (.addr a) = mem.objAt (.addr a) ∧
        ab.memory.headerAt (.addr a) = mem.headerAt (.addr a)) ∧
    (∀ mem' r, Mem.From lower order1 order2 mem (.addr a) = .ok (mem', r) →
      mem'.objAt (.addr a) = mem.objAt (.addr a) ∧
      mem'.headerAt (.addr a) = mem.headerAt (.addr a) ∧
      r = .addr mem.maps.length ∧ r ≠ .addr a ∧
      (∀ k x off len cap, mem'.indexAt r k = some (.mk x off len cap) →
        mem.arrays.length ≤ x) ∧
      From lower order1 order2 (mem.headerAt (.addr a)) = .ok (mem'.headerAt r) ∧
      (∀ k v, ∃ mem2, mem'.assignAt (.addr a) k v = .ok mem2 ∧
        mem2.headerAt r = mem'.headerAt r) ∧
      (∀ k, (mem'.deleteAt (.addr a) k).headerAt r = mem'.headerAt r) ∧
      (∀ k s i v mem2, mem.indexAt (.addr a) k = some s → mem'.setElem s i v = .ok mem2 →
        mem2.headerAt r = mem'.headerAt r)) ∧
    (∀ mem' r, Mem.From lower order1 order2 mem .nil = .ok (mem', r) →
      r = .addr mem.maps.length ∧ mem'.arrays = mem.arrays ∧
      (∀ b, b < mem.maps.length → mem'.maps.getD b ∅ = mem.maps.getD b ∅)) := by
  have hwf := WellFormedAt_lookup mem (.addr a) hwell
  obtain ⟨ext, obj, hfrom, hfresh, hview⟩ := Mem_From_eq lower order1 order2 mem a hwf
  have hnew : mem.maps.length < (mem.maps ++ [obj]).length := by simp
  refine ⟨?_, ?_, ?_⟩
  rotate_left 2
  · intro mem' r hok
    have hnew0 : mem.maps.length < (mem.maps ++ [(∅ : MapObj)]).length := by simp
    have hok' : Mem.makeLowercase lower order2 ⟨mem.arrays, mem.maps ++ [∅]⟩
        (.addr mem.maps.length) = .ok (mem', r) := hok
    obtain ⟨hr, harr, _, hmaps, _, _⟩ := Mem_makeLowercase_ok lower hnew0 hok'
    refine ⟨hr, harr, ?_⟩
    intro b hb
    rw [hmaps b (Nat.ne_of_lt hb)]
    exact getD_append_left _ _ _ _ hb
  · intro ab hab
    rw [hfrom] at hab
    obtain ⟨harr, _, hmaps, _⟩ := Mem_makeLowercase_error lower hnew hab
    exact Mem_From_frame mem _ ab.memory ext obj a ha hwf rfl harr hmaps
  · intro mem' r hok
    rw [hfrom] at hok
    obtain ⟨hr, harr, hlen, hmaps, hsim, hval⟩ := Mem_makeLowercase_ok lower hnew hok
    obtain ⟨hobj, hhdr⟩ := Mem_From_frame mem _ mem' ext obj a ha hwf rfl harr hmaps
    simp only [] at harr hlen hmaps
    have hane : mem.maps.length ≠ a := Nat.ne_of_gt ha
    have ha' : a < mem'.maps.length := by
      rw [hlen, List.length_append, List.length_singleton]; omega
    have hfresh' : ∀ k x off len cap,
        (mem'.maps.getD mem.maps.length ∅).lookup k = some (.mk x off len cap) →
        mem.arrays.length ≤ x := by
      intro k x off len cap hk
      obtain ⟨k0, hk0⟩ := hval k _ hk
      simp only [Memory.indexAt, Memory.objAt, getD_append_length] at hk0
      exact hfresh k0 x off len cap hk0
    subst hr
    refine ⟨hobj, hhdr, rfl, ?_, hfresh', ?_, ?_, ?_, ?_⟩
    · intro hc
      injection hc with hc
      exact hane hc
    · have hv : From lower order1 order2 (mem.headerAt (.addr a)) =
          makeLowercase lower order2
            ((⟨mem.arrays ++ ext, mem.maps ++ [obj]⟩ : Memory).headerAt
              (.addr mem.maps.length)) := by
        simp only [From, Memory.headerAt, getD_append_length, hview]
      rw [hv]
      exact hsim
    · intro k v
      obtain ⟨mem2, h2, _, _, harr2, _, hmaps2⟩ := indexAt_assignAt mem' a k v ha'
      refine ⟨mem2, h2, ?_⟩
      simp only [Memory.headerAt, harr2, hmaps2 _ hane]
    · intro k
      obtain ⟨_, _, harr2, _, hmaps2⟩ := indexAt_deleteAt mem' a k ha'
      simp only [Memory.headerAt, harr2, hmaps2 _ hane]
    · intro k s i v mem2 hs hset
      cases s with
      | nil => simp [Memory.setElem] at hset
      | mk x off len cap =>
        have hx : x < mem.arrays.length := hwf k x off len cap hs
        simp only [Memory.setElem] at hset
        by_cases hi : i < len
        · simp only [hi, if_true] at hset
          injection hset with hset
          subst hset
          simp only [Memory.headerAt]
          congr 1
          apply viewObj_congr
          intro k' v' hv'
          cases v' with
          | nil => rfl
          | mk y o l c =>
            have hy : mem.arrays.length ≤ y := hfresh' k' y o l c hv'
            have hyx : y ≠ x := by omega
            simp only [sliceOf, readSlice, getD_set_other _ _ _ _ _ hyx]
        · simp [hi] at hset

/-- C12: for an idempotent key transformation and every non-nil
collision-free map of the memory, `Using` returns, and returns the very map
value it was given: the map the caller holds and the returned header are one
map object, with the normalised contents, and the value sequences were not
copied.  An entry inserted or replaced, or deleted, through the caller's map
value is found, or missed, through the returned one, and the other way round. -/
theorem Using_same_map (lower : String → String) (hidem : ∀ s, lower (lower s) = lower s)
    (mem : Memory) (a : Nat) (order : List String) (ha : a < mem.maps.length)
    (hcov : Covers order (mem.headerAt (.addr a)))
    (hfree : CollisionFree lower (mem.headerAt (.addr a))) :
    ∃ (mem' : Memory) (r : MapRef), Mem.Using lower order mem (.addr a) = .ok (mem', r) ∧
      r = .addr a ∧
      mem'.headerAt r = mem'.headerAt (.addr a) ∧
      Using lower order (mem.headerAt (.addr a)) = .ok (mem'.headerAt r) ∧
      mem'.arrays = mem.arrays ∧
      (∀ k s, mem'.indexAt r k = some s → ∃ k0, mem.indexAt (.addr a) k0 = some s) ∧
      (∀ k v, ∃ mem2, mem'.assignAt (.addr a) k v = .ok mem2 ∧ mem2.indexAt r k = some v ∧
        mem2.headerAt r = mem2.headerAt (.addr a)) ∧
      (∀ k v, ∃ mem2, mem'.assignAt r k v = .ok mem2 ∧ mem2.indexAt (.addr a) k = some v ∧
        mem2.headerAt (.addr a) = mem2.headerAt r) ∧
      (∀ k, (mem'.deleteAt (.addr a) k).indexAt r k = none) ∧
      (∀ k, (mem'.deleteAt r k).indexAt (.addr a) k = none) := by
  cases hu : Mem.Using lower order mem (.addr a) with
  | error ab =>
    exfalso
    obtain ⟨_, _, _, hsim⟩ := Mem_makeLowercase_error lower ha hu
    obtain ⟨r, hr, _⟩ := makeLowercase_returns lower hidem hcov hfree
    rw [hr] at hsim
    cases hsim
  | ok res =>
    obtain ⟨mem', r⟩ := res
    obtain ⟨hr, harr, hlen, _, hsim, hval⟩ := Mem_makeLowercase_ok lower ha hu
    have ha' : a < mem'.maps.length := by rw [hlen]; exact ha
    subst hr
    refine ⟨mem', .addr a, rfl, rfl, rfl, hsim, harr, hval, ?_, ?_, ?_, ?_⟩
    · intro k v
      obtain ⟨mem2, h2, hidx, _⟩ := indexAt_assignAt mem' a k v ha'
      exact ⟨mem2, h2, hidx, rfl⟩
    · intro k v
      obtain ⟨mem2, h2, hidx, _⟩ := indexAt_assignAt mem' a k v ha'
      exact ⟨mem2, h2, hidx, rfl⟩
    · intro k
      exact (indexAt_deleteAt mem' a k ha').1
    · intro k
      exact (indexAt_deleteAt mem' a k ha').1

/-- Witness of C12: `Using` on the source map of the tests, then the write of
`Mark` through the original map. -/
theorem Using_same_map_witness :
    ∃ (mem' : Memory) (r : MapRef),
      Mem.Using toLowerLatin1 ["Content-Length", "Content-Type"] sampleMemory (.addr 0) =
        .ok (mem', r) ∧
      r = .addr 0 ∧
      (∃ mem2, mem'.assignAt (.addr 0) "Mark" (.mk 0 0 1 1) = .ok mem2 ∧
        mem2.indexAt r "Mark" = some (.mk 0 0 1 1) ∧ mem2.headerAt r = mem2.headerAt (.addr 0)) := by
  obtain ⟨mem', r, hu, hr, _, _, _, _, hw, _⟩ := Using_same_map toLowerLatin1 toLowerLatin1_idem
    sampleMemory 0 ["Content-Length", "Content-Type"] (by decide) (by decide) (by decide)
  exact ⟨mem', r, hu, hr, hw "Mark" (.mk 0 0 1 1)⟩

/-- Witness of C11: `From` on the source map of the tests, then the write of
`Mark` to the source and the overwriting of the value of `Content-Type`. -/
theorem From_is_a_copy_witness :
    Mem.From toLowerLatin1 ["Content-Type", "Content-Length"] ["Content-Length", "Content-Type"]
        sampleMemory (.addr 0) =
      .ok (⟨[["foo"], ["3"], ["foo"], ["3"]],
        [Finmap.insert "Content-Type" (.mk 0 0 1 1)
            (Finmap.insert "Content-Length" (.mk 1 0 1 1) ∅),
          Finmap.insert "content-type" (.mk 2 0 1 1)
            (Finmap.insert "content-length" (.mk 3 0 1 1) ∅)]⟩, .addr 1) ∧
    (∃ mem2, (⟨[["foo"], ["3"], ["foo"], ["3"]],
        [Finmap.insert "Content-Type" (.mk 0 0 1 1)
            (Finmap.insert "Content-Length" (.mk 1 0 1 1) ∅),
          Finmap.insert "content-type" (.mk 2 0 1 1)
            (Finmap.insert "content-length" (.mk 3 0 1 1) ∅)]⟩ : Memory).assignAt
          (.addr 0) "Mark" (.mk 0 0 1 1) = .ok mem2 ∧
      mem2.headerAt (.addr 1) = (⟨[["foo"], ["3"], ["foo"], ["3"]],
        [Finmap.insert "Content-Type" (.mk 0 0 1 1)
            (Finmap.insert "Content-Length" (.mk 1 0 1 1) ∅),
          Finmap.insert "content-type" (.mk 2 0 1 1)
            (Finmap.insert "content-length" (.mk 3 0 1 1) ∅)]⟩ : Memory).headerAt (.addr 1)) ∧
    (⟨[["CHANGED"], ["3"], ["foo"], ["3"]],
        [Finmap.insert "Content-Type" (.mk 0 0 1 1)
            (Finmap.insert "Content-Length" (.mk 1 0 1 1) ∅),
          Finmap.insert "content-type" (.mk 2 0 1 1)
            (Finmap.insert "content-length" (.mk 3 0 1 1) ∅)]⟩ : Memory).headerAt (.addr 1) =
      (⟨[["foo"], ["3"], ["foo"], ["3"]],
        [Finmap.insert "Content-Type" (.mk 0 0 1 1)
            (Finmap.insert "Content-Length" (.mk 1 0 1 1) ∅),
          Finmap.insert "content-type" (.mk 2 0 1 1)
            (Finmap.insert "content-length" (.mk 3 0 1 1) ∅)]⟩ : Memory).headerAt (.addr 1) :=
  have hcopy := (From_is_a_copy toLowerLatin1 ["Content-Type", "Content-Length"]
    ["Content-Length", "Content-Type"] sampleMemory 0 (by decide) (by decide)).2.1 _ _
    (by decide)
  ⟨by decide, hcopy.2.2.2.2.2.2.1 "Mark" (.mk 0 0 1 1),
    hcopy.2.2.2.2.2.2.2.2 "Content-Type" (.mk 0 0 1 1) 0 "CHANGED" _ (by decide) (by decide)⟩

/-! ## The key transformation -/

/-- On an ASCII character the lower-casing is the ASCII-range fold. -/
theorem unicodeToLowerLatin1_ascii (c : Char) (hc : c.toNat < 0x80) :
    unicodeToLowerLatin1 c = asciiFoldChar c := by
  unfold unicodeToLowerLatin1 asciiFoldChar
  by_cases h : 0x41 ≤ c.toNat ∧ c.toNat ≤ 0x5A
  · rw [if_pos (Or.inl h), if_pos h]
  · rw [if_neg h, if_neg]
    rintro (h1 | h1 | h1)
    · exact h h1
    · omega
    · omega

/-- On an ASCII string the lower-casing is the ASCII-range fold. -/
theorem toLowerLatin1_ascii (s : String) (hs : IsASCII s) : toLowerLatin1 s = asciiFold s := by
  unfold toLowerLatin1 asciiFold
  congr 1
  apply List.map_congr_left
  intro c hc
  exact unicodeToLowerLatin1_ascii c (hs c hc)

/-- When `makeLowercase` returns under a covering schedule, the header it
returns holds under the lower-case form of each key the slice the map held
under that key, and has no key that is not lower-case. -/
theorem makeLowercase_image (lower : String → String)
    (hidem : ∀ s, lower (lower s) = lower s) {order : List String} {m r : Header}
    (hcov : Covers order m) (h : makeLowercase lower order m = .ok r) :
    ∀ k v, m.index k = some v →
      r.index (lower k) = some v ∧ (lower k ≠ k → r.index k = none) := by
  have hlow := makeLowercase_AllLower lower hidem hcov h
  cases m with
  | nil => intro k v hk; simp [Header.index] at hk
  | mk e =>
    unfold makeLowercase at h
    cases hl : makeLowercaseLoop lower order e with
    | error a => simp [hl] at h
    | ok e' =>
      simp only [hl] at h
      injection h with h
      subst h
      intro k v hk
      obtain ⟨k', hk', hc⟩ :=
        (makeLowercaseLoop_rel lower hidem order e e' hl (lower k) v).2 ⟨k, hk, rfl⟩
      have hk'low : lower k' = k' :=
        hlow k' (mem_keys_mk.2 (Finmap.mem_of_lookup_eq_some hk'))
      refine ⟨?_, ?_⟩
      · show e'.lookup (lower k) = some v
        rw [← hc, hk'low, hk']
      · intro hne
        rw [index_eq_none_iff]
        intro hin
        exact hne (hlow k hin)

/-- Writing a cell outside a window of a list does not change the window. -/
theorem take_drop_set_outside (l : List String) (i o n : Nat) (v : String)
    (h : i < o ∨ o + n ≤ i) : ((l.set i v).drop o).take n = (l.drop o).take n := by
  apply List.ext_getElem?
  intro j
  simp only [List.getElem?_take, List.getElem?_drop, List.getElem?_set]
  by_cases hj : j < n
  · simp only [hj, if_true]
    have hne : i ≠ o + j := by omega
    simp [hne]
  · simp [hj]

/-- Writing the cell just past the end of a window of a list: the window
lengthened by one is the old window followed by the value written. -/
theorem take_drop_set_end (l : List String) (o n : Nat) (v : String)
    (h : o + n < l.length) :
    ((l.set (o + n) v).drop o).take (n + 1) = (l.drop o).take n ++ [v] := by
  apply List.ext_getElem?
  intro j
  have hlen : ((l.drop o).take n).length = n := by
    simp [List.length_take, List.length_drop]; omega
  simp only [List.getElem?_take, List.getElem?_drop, List.getElem?_set]
  by_cases hj : j < n
  · have h1 : j < n + 1 := by omega
    have hne : o + n ≠ o + j := by omega
    rw [List.getElem?_append_left (by rw [hlen]; exact hj)]
    simp [h1, hj, hne, List.getElem?_take, List.getElem?_drop]
  · by_cases hjn : j = n
    · subst hjn
      rw [List.getElem?_append_right (by rw [hlen])]
      simp [hlen, h]
    · have h1 : ¬ j < n + 1 := by omega
      rw [List.getElem?_append_right (by rw [hlen]; omega)]
      simp [h1, hlen]
      omega

/-- A window of a list that starts with a value is not empty, and the list
holds that value at the offset of the window. -/
theorem head_take_drop (l : List String) (o n : Nat) (v : String) (rest : List String)
    (h : (l.drop o).take n = v :: rest) : 0 < n ∧ l.getD o "" = v := by
  cases n with
  | zero => simp at h
  | succ m =>
    refine ⟨by omega, ?_⟩
    have := congrArg (fun x => x[0]?) h
    simp only [List.getElem?_take, List.getElem?_drop] at this
    simp at this
    simp [List.getD_eq_getElem?_getD, this]

/-- A slice value within bounds denotes as many elements as its length. -/
theorem readSlice_length (arrays : Arrays) (s : SliceRef) (h : s.InBounds arrays) :
    (readSlice arrays s).length = s.len := by
  cases s with
  | nil => rfl
  | mk x off len cap =>
    obtain ⟨_, h2, h3⟩ := h
    simp only [readSlice, SliceRef.len, List.length_take, List.length_drop]
    omega

/-- Allocating further arrays keeps a slice value within bounds. -/
theorem InBounds_append (arrays ext : Arrays) (t : SliceRef) (h : t.InBounds arrays) :
    t.InBounds (arrays ++ ext) := by
  cases t with
  | nil => trivial
  | mk y o l c =>
    obtain ⟨h1, h2, h3⟩ := h
    refine ⟨by rw [List.length_append]; omega, h2, ?_⟩
    rw [getD_append_left arrays ext y [] h1]
    exact h3

/-- Allocating further arrays does not change what a slice value within bounds
denotes. -/
theorem readSlice_append (arrays ext : Arrays) (t : SliceRef) (h : t.InBounds arrays) :
    readSlice (arrays ++ ext) t = readSlice arrays t := by
  cases t with
  | nil => rfl
  | mk y o l c =>
    simp only [readSlice, getD_append_left arrays ext y [] h.1]

/-- Writing one cell of an array keeps a slice value within bounds. -/
theorem InBounds_set (arrays : Arrays) (x i : Nat) (v : String) (t : SliceRef)
    (h : t.InBounds arrays) :
    t.InBounds (arrays.set x ((arrays.getD x []).set i v)) := by
  cases t with
  | nil => trivial
  | mk y o l c =>
    obtain ⟨h1, h2, h3⟩ := h
    refine ⟨by rw [List.length_set]; exact h1, h2, ?_⟩
    by_cases hyx : y = x
    · subst hyx
      rw [getD_set_self _ _ _ _ h1, List.length_set]
      exact h3
    · rw [getD_set_other _ _ _ _ _ hyx]
      exact h3

/-- Writing the cell just past the end of a slice value with spare capacity
does not change what a slice value denotes that does not hold that cell. -/
theorem readSlice_set_outside (arrays : Arrays) (x off len cap : Nat) (v : String)
    (t : SliceRef) (ht : t.InBounds arrays) (hlen : len < cap)
    (hout : ¬ (SliceRef.mk x off len cap).WritesInto t) :
    readSlice (arrays.set x ((arrays.getD x []).set (off + len) v)) t = readSlice arrays t := by
  cases t with
  | nil => rfl
  | mk y o l c =>
    obtain ⟨h1, h2, h3⟩ := ht
    simp only [readSlice]
    by_cases hyx : y = x
    · subst hyx
      rw [getD_set_self _ _ _ _ h1]
      apply take_drop_set_outside
      have hcell : ¬ (o ≤ off + len ∧ off + len < o + l) := fun hc =>
        hout ⟨hlen, rfl, hc.1, hc.2⟩
      omega
    · rw [getD_set_other _ _ _ _ _ hyx]

/-- Appending to a slice value writes into no slice value apart from it. -/
theorem not_WritesInto_of_Apart (arrays : Arrays) (s t : SliceRef) (ht : t.InBounds arrays)
    (hap : s.Apart t) : ¬ s.WritesInto t := by
  cases s with
  | nil => simp [SliceRef.WritesInto]
  | mk x off len cap =>
    cases t with
    | nil => simp [SliceRef.WritesInto]
    | mk y o l c =>
      obtain ⟨_, h2, _⟩ := ht
      simp only [SliceRef.Apart] at hap
      simp only [SliceRef.WritesInto]
      rintro ⟨h1, hxy, h3, h4⟩
      rcases hap with hap | hap | hap
      · exact hap hxy
      · omega
      · omega

/-- What `append` does to the memory, for a slice value within bounds: the
result denotes the elements of the slice followed by the new element; it is
within bounds, and so is every slice value that was; a slice value denotes what
it did unless it holds the cell that `append` writes; and a slice value apart
from the one appended to is apart from the result. -/
theorem Mem_append_spec (spare : Nat → Nat) (arrays : Arrays) (s : SliceRef) (v : String)
    (hs : s.InBounds arrays) :
    readSlice (Mem.append spare arrays s v).1 (Mem.append spare arrays s v).2 =
        readSlice arrays s ++ [v] ∧
      (Mem.append spare arrays s v).2 ≠ .nil ∧
      (Mem.append spare arrays s v).2.InBounds (Mem.append spare arrays s v).1 ∧
      (∀ t : SliceRef, t.InBounds arrays → t.InBounds (Mem.append spare arrays s v).1) ∧
      (∀ t : SliceRef, t.InBounds arrays → ¬ s.WritesInto t →
        readSlice (Mem.append spare arrays s v).1 t = readSlice arrays t) ∧
      (∀ t : SliceRef, t.InBounds arrays → s.Apart t →
        (Mem.append spare arrays s v).2.Apart t) := by
  have hgrow : ∀ s : SliceRef, s.InBounds arrays →
      readSlice (Mem.grow spare arrays s v).1 (Mem.grow spare arrays s v).2 =
          readSlice arrays s ++ [v] ∧
        (Mem.grow spare arrays s v).2 ≠ .nil ∧
        (Mem.grow spare arrays s v).2.InBounds (Mem.grow spare arrays s v).1 ∧
        (∀ t : SliceRef, t.InBounds arrays → t.InBounds (Mem.grow spare arrays s v).1) ∧
        (∀ t : SliceRef, t.InBounds arrays →
          readSlice (Mem.grow spare arrays s v).1 t = readSlice arrays t) ∧
        (∀ t : SliceRef, t.InBounds arrays → (Mem.grow spare arrays s v).2.Apart t) := by
    intro s hs
    have hl := readSlice_length arrays s hs
    refine ⟨?_, by simp [Mem.grow], ?_, ?_, ?_, ?_⟩
    · have key : ∀ (r : List String) (n : Nat),
          List.take (r.length + 1) (r ++ v :: List.replicate n "") = r ++ [v] := by
        intro r n
        rw [show r ++ v :: List.replicate n "" = (r ++ [v]) ++ List.replicate n "" by simp]
        rw [List.take_append_of_le_length (by simp)]
        exact List.take_of_length_le (by simp)
      have hk := key (readSlice arrays s) (spare s.len)
      rw [hl] at hk
      show List.take (s.len + 1) (List.drop 0 (List.getD
        (arrays ++ [readSlice arrays s ++ v :: List.replicate (spare s.len) ""])
        arrays.length [])) = _
      rw [getD_append_length, List.drop_zero]
      exact hk
    · simp only [Mem.grow, SliceRef.InBounds, getD_append_length]
      refine ⟨by simp, by omega, ?_⟩
      simp [hl]
      omega
    · intro t ht
      exact InBounds_append arrays _ t ht
    · intro t ht
      exact readSlice_append arrays _ t ht
    · intro t ht
      cases t with
      | nil => simp [Mem.grow, SliceRef.Apart]
      | mk y o l c =>
        simp only [Mem.grow, SliceRef.Apart]
        left
        have := ht.1
        omega
  cases s with
  | nil =>
    obtain ⟨h1, h2, h3, h4, h5, h6⟩ := hgrow .nil hs
    exact ⟨h1, h2, h3, h4, fun t ht _ => h5 t ht, fun t ht _ => h6 t ht⟩
  | mk x off len cap =>
    by_cases hlen : len < cap
    · have happ : Mem.append spare arrays (.mk x off len cap) v =
          (arrays.set x ((arrays.getD x []).set (off + len) v), .mk x off (len + 1) cap) := by
        simp only [Mem.append, hlen, if_true]
      rw [happ]
      obtain ⟨hx, hlc, hcap⟩ := hs
      refine ⟨?_, by simp, ?_, ?_, ?_, ?_⟩
      · simp only [readSlice, getD_set_self _ _ _ _ hx]
        exact take_drop_set_end _ _ _ _ (by omega)
      · refine ⟨by rw [List.length_set]; exact hx, by omega, ?_⟩
        rw [getD_set_self _ _ _ _ hx, List.length_set]
        exact hcap
      · intro t ht
        exact InBounds_set arrays x (off + len) v t ht
      · intro t ht hout
        exact readSlice_set_outside arrays x off len cap v t ht hlen hout
      · intro t ht hap
        cases t with
        | nil => simp [SliceRef.Apart]
        | mk y o l c => exact hap
    · have happ : Mem.append spare arrays (.mk x off len cap) v =
          Mem.grow spare arrays (.mk x off len cap) v := by
        simp only [Mem.append, hlen, if_false]
      rw [happ]
      obtain ⟨h1, h2, h3, h4, h5, h6⟩ := hgrow (.mk x off len cap) hs
      exact ⟨h1, h2, h3, h4, fun t ht _ => h5 t ht, fun t ht _ => h6 t ht⟩

/-! ## Maps in memory: the methods -/

/-- The entry a map of the memory holds under a key is the slice its stored
slice value denotes. -/
theorem index_headerAt (mem : Memory) (a : Nat) (k : String) :
    (mem.headerAt (.addr a)).index k = (mem.indexAt (.addr a) k).map (sliceOf mem.arrays) :=
  lookup_viewObj mem.arrays (mem.maps.getD a ∅) k

/-- The elements of the slice a slice value denotes. -/
theorem elems_sliceOf (arrays : Arrays) (t : SliceRef) :
    (sliceOf arrays t).elems = readSlice arrays t := by
  cases t <;> rfl

/-- Slice values that denote the same elements in two memories denote the same
slice. -/
theorem sliceOf_congr (arrays1 arrays2 : Arrays) (t : SliceRef)
    (h : readSlice arrays1 t = readSlice arrays2 t) : sliceOf arrays1 t = sliceOf arrays2 t := by
  cases t with
  | nil => rfl
  | mk x off len cap => simp only [sliceOf, h]

/-- A slice value other than nil denotes a non-nil slice. -/
theorem sliceOf_ne_nil (arrays : Arrays) (t : SliceRef) (h : t ≠ .nil) :
    sliceOf arrays t = .mk (readSlice arrays t) := by
  cases t with
  | nil => exact absurd rfl h
  | mk x off len cap => rfl

/-- Being apart is symmetric. -/
theorem Apart_symm (s t : SliceRef) (h : s.Apart t) : t.Apart s := by
  cases s with
  | nil => cases t <;> simp [SliceRef.Apart]
  | mk x off len cap =>
    cases t with
    | nil => simp [SliceRef.Apart]
    | mk y o l c =>
      simp only [SliceRef.Apart] at h ⊢
      rcases h with h | h | h
      · exact Or.inl (fun e => h e.symm)
      · exact Or.inr (Or.inr h)
      · exact Or.inr (Or.inl h)

/-- The slice values of a map lie within bounds: by key and stored value. -/
theorem InBoundsAt_lookup (mem : Memory) (m : MapRef) :
    mem.InBoundsAt m ↔ ∀ k t, mem.indexAt m k = some t → t.InBounds mem.arrays := by
  constructor
  · intro h k t hk
    have hmem : k ∈ (mem.objAt m).keys := by
      rw [Finmap.mem_keys, ← Finmap.lookup_isSome]
      simp only [Memory.indexAt] at hk
      simp [hk]
    have := h k hmem
    rw [hk] at this
    exact this
  · intro h k _
    cases hk : mem.indexAt m k with
    | none => trivial
    | some t => exact h k t hk

/-- The slice value under a key is apart from those under the other keys: by
key and stored value. -/
theorem ApartAt_lookup (mem : Memory) (m : MapRef) (key : String) :
    mem.ApartAt m key ↔ ∀ k t, k ≠ key → mem.indexAt m k = some t →
      ((mem.indexAt m key).getD .nil).Apart t := by
  constructor
  · intro h k t hne hk
    have hmem : k ∈ (mem.objAt m).keys := by
      rw [Finmap.mem_keys, ← Finmap.lookup_isSome]
      simp only [Memory.indexAt] at hk
      simp [hk]
    have := h k hmem hne
    rw [hk] at this
    exact this
  · intro h k _ hne
    cases hk : mem.indexAt m k with
    | none => exact Apart_symm _ _ (by simp [SliceRef.Apart])
    | some t => exact h k t hne hk

/-- The slice value a map holds under a key, or nil, lies within bounds when
every slice value of the map does. -/
theorem InBounds_getD (mem : Memory) (m : MapRef)
    (hin : ∀ k t, mem.indexAt m k = some t → t.InBounds mem.arrays) (k : String) :
    ((mem.indexAt m k).getD .nil).InBounds mem.arrays := by
  cases hk : mem.indexAt m k with
  | none => trivial
  | some t => exact hin k t hk

/-- What `Add` does to a map of the memory whose slice values lie within
bounds: it returns; the map holds under the lower-case key a slice value that
denotes the elements stored there before followed by the new value; the slice
values under the other keys are the same values; slice values within bounds
stay so; a slice value denotes what it did unless it holds the cell that
`append` writes; and what was apart from the slice value appended to is apart
from the one stored. -/
theorem Mem_Add_spec (lower : String → String) (spare : Nat → Nat) (mem : Memory) (a : Nat)
    (key value : String) (ha : a < mem.maps.length)
    (hin : ∀ k t, mem.indexAt (.addr a) k = some t → t.InBounds mem.arrays) :
    ∃ (mem' : Memory) (s' : SliceRef),
      Mem.Add lower spare mem (.addr a) key value = .ok mem' ∧
      mem'.maps.length = mem.maps.length ∧
      mem'.indexAt (.addr a) (lower key) = some s' ∧
      (∀ x, x ≠ lower key → mem'.indexAt (.addr a) x = mem.indexAt (.addr a) x) ∧
      readSlice mem'.arrays s' =
        readSlice mem.arrays ((mem.indexAt (.addr a) (lower key)).getD .nil) ++ [value] ∧
      s' ≠ .nil ∧
      s'.InBounds mem'.arrays ∧
      (∀ t : SliceRef, t.InBounds mem.arrays → t.InBounds mem'.arrays) ∧
      (∀ t : SliceRef, t.InBounds mem.arrays →
        ¬ ((mem.indexAt (.addr a) (lower key)).getD .nil).WritesInto t →
        readSlice mem'.arrays t = readSlice mem.arrays t) ∧
      (∀ t : SliceRef, t.InBounds mem.arrays →
        ((mem.indexAt (.addr a) (lower key)).getD .nil).Apart t → s'.Apart t) := by
  obtain ⟨h1, h2, h3, h4, h5, h6⟩ := Mem_append_spec spare mem.arrays
    ((mem.indexAt (.addr a) (lower key)).getD .nil) value (InBounds_getD mem _ hin (lower key))
  refine ⟨_, _, rfl, by simp, ?_, ?_, h1, h2, h3, h4, h5, h6⟩
  · simp only [Memory.indexAt, Memory.objAt, getD_set_self _ _ _ _ ha, Finmap.lookup_insert]
  · intro x hx
    simp only [Memory.indexAt, Memory.objAt, getD_set_self _ _ _ _ ha]
    exact Finmap.lookup_insert_of_ne _ hx

/-- On a map of the memory in which the slice value under the lower-case key
is apart from those under the other keys, `Add` on the memory is `Add` on the
contents of the map. -/
theorem Mem_Add_sim (lower : String → String) (spare : Nat → Nat) (mem : Memory) (a : Nat)
    (key value : String) (ha : a < mem.maps.length) (hin : mem.InBoundsAt (.addr a))
    (hap : mem.ApartAt (.addr a) (lower key)) :
    ∃ mem' : Memory, Mem.Add lower spare mem (.addr a) key value = .ok mem' ∧
      Add lower (mem.headerAt (.addr a)) key value = .ok (mem'.headerAt (.addr a)) := by
  rw [InBoundsAt_lookup] at hin
  rw [ApartAt_lookup] at hap
  obtain ⟨mem', s', hadd, _, hs', hother, hread, hnil, _, _, hkeep, _⟩ :=
    Mem_Add_spec lower spare mem a key value ha hin
  refine ⟨mem', hadd, ?_⟩
  simp only [Add, Header.assign, Memory.headerAt]
  congr 2
  apply Finmap.ext_lookup
  intro x
  have hx := index_headerAt mem' a x
  simp only [Memory.headerAt, Header.index] at hx
  rw [hx]
  by_cases hxk : x = lower key
  · subst hxk
    rw [Finmap.lookup_insert, hs', Option.map_some', sliceOf_ne_nil _ _ hnil, hread]
    simp only [Slice.append, Header.at]
    have hx0 := index_headerAt mem a (lower key)
    simp only [Memory.headerAt] at hx0
    rw [hx0]
    cases hk : mem.indexAt (.addr a) (lower key) with
    | none => rfl
    | some t => simp [elems_sliceOf]
  · rw [Finmap.lookup_insert_of_ne _ hxk, hother x hxk]
    have hx0 := index_headerAt mem a x
    simp only [Memory.headerAt, Header.index] at hx0
    rw [hx0]
    cases hk : mem.indexAt (.addr a) x with
    | none => rfl
    | some t =>
      simp only [Option.map_some']
      rw [sliceOf_congr _ _ t (hkeep t (hin x t hk)
        (not_WritesInto_of_Apart _ _ t (hin x t hk) (hap x t hxk hk)))]

/-- C6 as stated fails where two keys hold windows of one backing array: in a
map that holds `s[:1]` under `a` and `s[1:2]` under `b`, for a slice `s` of
three elements, `Add("a", "new")` writes into the array of `s`, and the entry
of `b` changes from `y` to `new`. -/
theorem Add_overlap_counterexample :
    overlappingMemory.InBoundsAt (.addr 0) ∧
      (overlappingMemory.headerAt (.addr 0)).index "a" = some (.mk ["x"]) ∧
      (overlappingMemory.headerAt (.addr 0)).index "b" = some (.mk ["y"]) ∧
      ((overlappingMemory.indexAt (.addr 0) "a").getD .nil).WritesInto
        ((overlappingMemory.indexAt (.addr 0) "b").getD .nil) ∧
      ∃ mem' : Memory,
        Mem.Add toLowerLatin1 (fun _ => 0) overlappingMemory (.addr 0) "a" "new" = .ok mem' ∧
        (mem'.headerAt (.addr 0)).index "a" = some (.mk ["x", "new"]) ∧
        (mem'.headerAt (.addr 0)).index "b" = some (.mk ["new"]) :=
  ⟨by decide, by decide, by decide, by decide,
    ⟨[["x", "new", "z"]],
      [Finmap.insert "a" (.mk 0 0 2 3) (Finmap.insert "b" (.mk 0 1 1 2) ∅)]⟩,
    by decide, by decide, by decide⟩

/-- C6, as amended: on a non-nil header, a map object of the memory whose slice
values lie within their arrays, `Add` returns; afterwards the entry for
`lower key` is the sequence previously stored there (the empty sequence if the
key was absent) followed by `value`, so `Values key` is the previous
`Values key` with `value` appended; every other key holds the slice value it
held (same array, offset, length and capacity), and has the entry it had
unless the slice previously stored under `lower key` has spare capacity and
the array cell just past its end, which `append` writes, is one of the
elements of that other slice; and when `key` is not lower-case and the header
had only lower-case keys, `key` itself is not present afterwards.  The slice
values of the map still lie within their arrays. -/
theorem Mem_Add_appends (lower : String → String) (spare : Nat → Nat) (mem : Memory) (a : Nat)
    (key value : String) (ha : a < mem.maps.length) (hin : mem.InBoundsAt (.addr a)) :
    ∃ mem' : Memory, Mem.Add lower spare mem (.addr a) key value = .ok mem' ∧
      (mem'.headerAt (.addr a)).index (lower key) =
        some (.mk ((match (mem.headerAt (.addr a)).index (lower key) with
          | some old => old.elems
          | none => []) ++ [value])) ∧
      Values lower (mem'.headerAt (.addr a)) key =
        .mk ((Values lower (mem.headerAt (.addr a)) key).elems ++ [value]) ∧
      (∀ k, k ≠ lower key → mem'.indexAt (.addr a) k = mem.indexAt (.addr a) k) ∧
      (∀ k, k ≠ lower key →
        ¬ ((mem.indexAt (.addr a) (lower key)).getD .nil).WritesInto
            ((mem.indexAt (.addr a) k).getD .nil) →
        (mem'.headerAt (.addr a)).index k = (mem.headerAt (.addr a)).index k) ∧
      (key ≠ lower key → AllLower lower (mem.headerAt (.addr a)) →
        key ∉ (mem'.headerAt (.addr a)).keys) ∧
      mem'.InBoundsAt (.addr a) := by
  rw [InBoundsAt_lookup] at hin
  obtain ⟨mem', s', hadd, _, hs', hother, hread, hnil, hins, hinb, hkeep, _⟩ :=
    Mem_Add_spec lower spare mem a key value ha hin
  have hold : (match (mem.headerAt (.addr a)).index (lower key) with
      | some old => old.elems
      | none => []) = readSlice mem.arrays ((mem.indexAt (.addr a) (lower key)).getD .nil) := by
    rw [index_headerAt]
    cases hk : mem.indexAt (.addr a) (lower key) with
    | none => rfl
    | some t => simp [elems_sliceOf]
  have hnew : (mem'.headerAt (.addr a)).index (lower key) =
      some (.mk (readSlice mem.arrays ((mem.indexAt (.addr a) (lower key)).getD .nil) ++
        [value])) := by
    rw [index_headerAt, hs', Option.map_some', sliceOf_ne_nil _ _ hnil, hread]
  refine ⟨mem', hadd, ?_, ?_, hother, ?_, ?_, ?_⟩
  · rw [hold]; exact hnew
  · have hv : (Values lower (mem.headerAt (.addr a)) key).elems =
        readSlice mem.arrays ((mem.indexAt (.addr a) (lower key)).getD .nil) := by
      simp only [Values]
      rw [index_headerAt]
      cases hk : mem.indexAt (.addr a) (lower key) with
      | none => rfl
      | some t => simp [elems_sliceOf]
    rw [hv]
    simp only [Values, hnew]
  · intro k hk hap
    rw [index_headerAt, index_headerAt, hother k hk]
    cases hidx : mem.indexAt (.addr a) k with
    | none => rfl
    | some t =>
      simp only [Option.map_some']
      rw [hidx] at hap
      rw [sliceOf_congr _ _ t (hkeep t (hin k t hidx) hap)]
  · intro hne hlow hmem
    have hnone : (mem'.headerAt (.addr a)).index key ≠ none := fun h =>
      (index_eq_none_iff.1 h) hmem
    rw [index_headerAt, hother key hne] at hnone
    have hkey : key ∈ (mem.headerAt (.addr a)).keys := by
      by_contra hnot
      have hnot := index_eq_none_iff.2 hnot
      rw [index_headerAt] at hnot
      cases hidx : mem.indexAt (.addr a) key with
      | none => rw [hidx] at hnone; exact hnone rfl
      | some t => rw [hidx] at hnot; cases hnot
    exact hne (hlow key hkey).symm
  · rw [InBoundsAt_lookup]
    intro k t hk
    by_cases hkk : k = lower key
    · subst hkk
      rw [hs'] at hk
      injection hk with hk
      rw [← hk]; exact hins
    · rw [hother k hkk] at hk
      exact hinb t (hin k t hk)

/-- Witness of C6, as amended: the `Add` of the tests, with a key that is not
lower-case, on a header that holds two values under its lower-case form in an
array with room for a third; the entry of the other key is as before. -/
theorem Mem_Add_appends_witness :
    (0 < lowerMemory.maps.length ∧ lowerMemory.InBoundsAt (.addr 0)) ∧
      Mem.Add toLowerLatin1 (fun n => n) lowerMemory (.addr 0) "Content-Type" "baz" =
        .ok ⟨[["foo", "bar", "baz"], ["3", "4"]],
          [Finmap.insert "content-type" (.mk 0 0 3 3)
            (Finmap.insert "nonsense" (.mk 1 0 2 2) ∅)]⟩ ∧
      ∃ mem' : Memory,
        Mem.Add toLowerLatin1 (fun n => n) lowerMemory (.addr 0) "Content-Type" "baz" = .ok mem' ∧
        Values toLowerLatin1 (mem'.headerAt (.addr 0)) "Content-Type" =
          .mk ((Values toLowerLatin1 (lowerMemory.headerAt (.addr 0)) "Content-Type").elems ++
            ["baz"]) ∧
        (mem'.headerAt (.addr 0)).index "nonsense" =
          (lowerMemory.headerAt (.addr 0)).index "nonsense" ∧
        "Content-Type" ∉ (mem'.headerAt (.addr 0)).keys := by
  refine ⟨⟨by decide, by decide⟩, by decide, ?_⟩
  obtain ⟨mem', hadd, _, hv, _, hkeep, hnot, _⟩ := Mem_Add_appends toLowerLatin1 (fun n => n)
    lowerMemory 0 "Content-Type" "baz" (by decide) (by decide)
  exact ⟨mem', hadd, hv, hkeep "nonsense" (by decide) (by decide),
    hnot (by decide) (by decide)⟩

/-! ## Maps in memory: sequences of calls -/

/-- What `Set` does to a map of the memory: it allocates an array of one
element and stores it under the lower-case key. -/
theorem Mem_Set_spec (lower : String → String) (mem : Memory) (a : Nat)
    (key value : String) (ha : a < mem.maps.length) :
    ∃ mem' : Memory, Mem.Set lower mem (.addr a) key value = .ok mem' ∧
      mem'.maps.length = mem.maps.length ∧
      mem'.arrays = mem.arrays ++ [[value]] ∧
      mem'.indexAt (.addr a) (lower key) = some (.mk mem.arrays.length 0 1 1) ∧
      (∀ x, x ≠ lower key → mem'.indexAt (.addr a) x = mem.indexAt (.addr a) x) := by
  refine ⟨_, rfl, by simp, rfl, ?_, ?_⟩
  · simp only [Memory.indexAt, Memory.objAt, getD_set_self _ _ _ _ ha, Finmap.lookup_insert]
  · intro x hx
    simp only [Memory.indexAt, Memory.objAt, getD_set_self _ _ _ _ ha]
    exact Finmap.lookup_insert_of_ne _ hx

/-- One call on a map of the memory whose slice values lie within bounds, the
one under the key `K` apart from the others: the call returns and keeps these
facts; a call on a key of another lower-case form leaves the slice value under
`K` and the elements it denotes alone; an `Add` on a key with the lower-case
form `K` stores under `K` a slice value that denotes the elements stored there
before followed by the new value. -/
theorem Mem_runCall_step (lower : String → String) (spare : Nat → Nat) (a : Nat) (K : String)
    (c : Call) (mem : Memory) (ha : a < mem.maps.length)
    (hin : ∀ k t, mem.indexAt (.addr a) k = some t → t.InBounds mem.arrays)
    (hap : ∀ k t, k ≠ K → mem.indexAt (.addr a) k = some t →
      ((mem.indexAt (.addr a) K).getD .nil).Apart t) :
    ∃ mem' : Memory, Mem.runCall lower spare (.addr a) c mem = .ok mem' ∧
      a < mem'.maps.length ∧
      (∀ k t, mem'.indexAt (.addr a) k = some t → t.InBounds mem'.arrays) ∧
      (∀ k t, k ≠ K → mem'.indexAt (.addr a) k = some t →
        ((mem'.indexAt (.addr a) K).getD .nil).Apart t) ∧
      (lower c.key ≠ K → mem'.indexAt (.addr a) K = mem.indexAt (.addr a) K ∧
        readSlice mem'.arrays ((mem.indexAt (.addr a) K).getD .nil) =
          readSlice mem.arrays ((mem.indexAt (.addr a) K).getD .nil)) ∧
      (∀ ki vi, c = .add ki vi → lower ki = K →
        ∃ s' : SliceRef, mem'.indexAt (.addr a) K = some s' ∧
          readSlice mem'.arrays s' =
            readSlice mem.arrays ((mem.indexAt (.addr a) K).getD .nil) ++ [vi]) := by
  have hK : ((mem.indexAt (.addr a) K).getD .nil).InBounds mem.arrays :=
    InBounds_getD mem _ hin K
  cases c with
  | add key value =>
    obtain ⟨mem', s', hadd, hlen, hs', hother, hread, _, hins, hinb, hkeep, hapart⟩ :=
      Mem_Add_spec lower spare mem a key value ha hin
    refine ⟨mem', hadd, by omega, ?_, ?_, ?_, ?_⟩
    · intro k t hk
      by_cases hkk : k = lower key
      · subst hkk
        rw [hs'] at hk
        injection hk with hk
        rw [← hk]; exact hins
      · rw [hother k hkk] at hk
        exact hinb t (hin k t hk)
    · intro k t hkK hk
      by_cases hKk : lower key = K
      · subst hKk
        rw [hs', Option.getD_some]
        rw [hother k hkK] at hk
        exact hapart t (hin k t hk) (hap k t hkK hk)
      · rw [hother K (fun h => hKk h.symm)]
        by_cases hkk : k = lower key
        · subst hkk
          rw [hs'] at hk
          injection hk with hk
          rw [← hk]
          apply Apart_symm
          apply hapart _ hK
          cases hidx : mem.indexAt (.addr a) (lower key) with
          | none => simp [SliceRef.Apart]
          | some t0 => exact Apart_symm _ _ (hap _ t0 hkK hidx)
        · rw [hother k hkk] at hk
          exact hap k t hkK hk
    · intro hne
      simp only [Call.key] at hne
      refine ⟨hother K (fun h => hne h.symm),
        hkeep _ hK (not_WritesInto_of_Apart _ _ _ hK ?_)⟩
      cases hidx : mem.indexAt (.addr a) (lower key) with
      | none => simp [SliceRef.Apart]
      | some t0 => exact Apart_symm _ _ (hap _ t0 hne hidx)
    · intro ki vi hc hki
      injection hc with hc1 hc2
      subst hc1 hc2 hki
      exact ⟨s', hs', hread⟩
  | set key value =>
    obtain ⟨mem', hset, hlen, harr, hs', hother⟩ := Mem_Set_spec lower mem a key value ha
    have hfresh : ∀ t : SliceRef, t.InBounds mem.arrays →
        (SliceRef.mk mem.arrays.length 0 1 1).Apart t := by
      intro t ht
      cases t with
      | nil => simp [SliceRef.Apart]
      | mk y o l c =>
        have := ht.1
        simp only [SliceRef.Apart]
        left; omega
    refine ⟨mem', hset, by omega, ?_, ?_, ?_, ?_⟩
    · intro k t hk
      rw [harr]
      by_cases hkk : k = lower key
      · subst hkk
        rw [hs'] at hk
        injection hk with hk
        rw [← hk]
        refine ⟨by simp, le_refl _, ?_⟩
        rw [getD_append_length]
        simp
      · rw [hother k hkk] at hk
        exact InBounds_append _ _ t (hin k t hk)
    · intro k t hkK hk
      by_cases hKk : lower key = K
      · subst hKk
        rw [hs', Option.getD_some]
        rw [hother k hkK] at hk
        exact hfresh t (hin k t hk)
      · rw [hother K (fun h => hKk h.symm)]
        by_cases hkk : k = lower key
        · subst hkk
          rw [hs'] at hk
          injection hk with hk
          rw [← hk]
          exact Apart_symm _ _ (hfresh _ hK)
        · rw [hother k hkk] at hk
          exact hap k t hkK hk
    · intro hne
      simp only [Call.key] at hne
      refine ⟨hother K (fun h => hne h.symm), ?_⟩
      rw [harr]
      exact readSlice_append _ _ _ hK
    · intro ki vi hc hki
      cases hc
  | del key =>
    obtain ⟨hnone, hother, harr, hlen, _⟩ := indexAt_deleteAt mem a (lower key) ha
    refine ⟨mem.deleteAt (.addr a) (lower key), rfl, by omega, ?_, ?_, ?_, ?_⟩
    · intro k t hk
      rw [harr]
      by_cases hkk : k = lower key
      · subst hkk
        rw [hnone] at hk
        cases hk
      · rw [hother k hkk] at hk
        exact hin k t hk
    · intro k t hkK hk
      by_cases hkk : k = lower key
      · subst hkk
        rw [hnone] at hk
        cases hk
      · rw [hother k hkk] at hk
        by_cases hKk : lower key = K
        · subst hKk
          rw [hnone]
          simp [SliceRef.Apart]
        · rw [hother K (fun h => hKk h.symm)]
          exact hap k t hkK hk
    · intro hne
      simp only [Call.key] at hne
      refine ⟨hother K (fun h => hne h.symm), ?_⟩
      rw [harr]
    · intro ki vi hc hki
      cases hc

/-- A property of the memory that every call of a sequence preserves holds
after the sequence, which returns. -/
theorem Mem_runCalls_preserves (lower : String → String) (spare : Nat → Nat) (h : MapRef)
    (P : Memory → Prop) (calls : List Call)
    (hstep : ∀ c ∈ calls, ∀ mem : Memory, P mem →
      ∃ mem' : Memory, Mem.runCall lower spare h c mem = .ok mem' ∧ P mem') :
    ∀ mem : Memory, P mem →
      ∃ mem' : Memory, Mem.runCalls lower spare h calls mem = .ok mem' ∧ P mem' := by
  induction calls with
  | nil => intro mem hm; exact ⟨mem, rfl, hm⟩
  | cons c cs ih =>
    intro mem hm
    obtain ⟨m1, h1, hp1⟩ := hstep c (List.mem_cons_self _ _) mem hm
    obtain ⟨m2, h2, hp2⟩ := ih (fun c' hc' => hstep c' (List.mem_cons_of_mem _ hc')) m1 hp1
    refine ⟨m2, ?_, hp2⟩
    simp only [Mem.runCalls, h1]
    exact h2

/-- Running two sequences of calls one after the other. -/
theorem Mem_runCalls_append (lower : String → String) (spare : Nat → Nat) (h : MapRef)
    (cs1 cs2 : List Call) :
    ∀ (mem mem1 : Memory), Mem.runCalls lower spare h cs1 mem = .ok mem1 →
      Mem.runCalls lower spare h (cs1 ++ cs2) mem = Mem.runCalls lower spare h cs2 mem1 := by
  induction cs1 with
  | nil =>
    intro mem mem1 hr
    simp only [Mem.runCalls] at hr
    injection hr with hr
    rw [hr]; rfl
  | cons c cs ih =>
    intro mem mem1 hr
    simp only [Mem.runCalls, List.cons_append] at hr ⊢
    cases hc : Mem.runCall lower spare h c mem with
    | error msg => simp [hc] at hr
    | ok mem2 =>
      simp only [hc] at hr ⊢
      exact ih mem2 mem1 hr

/-- `Get` on a key whose stored slice value denotes a non-empty sequence, on
the memory and on the contents of the map. -/
theorem Mem_Get_of_read (lower : String → String) (mem : Memory) (a : Nat)
    (key K v : String) (others : List String) (s : SliceRef) (hkey : lower key = K)
    (hs : mem.indexAt (.addr a) K = some s) (hread : readSlice mem.arrays s = v :: others) :
    Mem.Get lower mem (.addr a) key = v ∧ Get lower (mem.headerAt (.addr a)) key = v := by
  subst hkey
  cases s with
  | nil => simp [readSlice] at hread
  | mk x off len cap =>
    constructor
    · obtain ⟨hpos, hv⟩ := head_take_drop _ _ _ _ _ hread
      simp only [Mem.Get, hs, SliceRef.len, hpos, if_true, readElem, Nat.add_zero]
      exact hv
    · have hidx := index_headerAt mem a (lower key)
      rw [hs, Option.map_some', sliceOf, hread] at hidx
      simp [Get, hidx, Slice.len, Slice.elems]

end lowerkeys
